import Mathlib

/-!
Verification of the autotag version-resolution engine.

The Go sources under verification are autotag.go (the engine) and its test
file. External collaborators (the hashicorp go-version library providing the
SemanticVersion data type, and the bump operations living in a file that is
not part of the sources) are modelled from the specification's data model:
a version is a triple of numeric segments plus a prerelease identifier
sequence and a build-metadata identifier sequence, compared by SemVer
precedence with metadata ignored.

Strings are modelled by Lean strings; machine unsigned 64-bit integers are
modelled by naturals reduced modulo 2^64 where overflow matters.
-/

namespace Autotag

/-! ### Ordering helpers -/

/-- A comparison function that behaves like the comparison of a total preorder:
reflexively equal, antisymmetric via swap, transitive on strict results, and
with equal elements indistinguishable by comparison. -/
structure LawfulCmp {α : Type} (cmp : α → α → Ordering) : Prop where
  refl : ∀ a, cmp a a = .eq
  swap : ∀ a b, cmp a b = (cmp b a).swap
  transGt : ∀ a b c, cmp a b = .gt → cmp b c = .gt → cmp a c = .gt
  eqCongr : ∀ a b c, cmp a b = .eq → cmp a c = cmp b c

/-- Lexicographic combination of two comparisons on the same type. -/
def thenCmp {α : Type} (c1 c2 : α → α → Ordering) (a b : α) : Ordering :=
  (c1 a b).then (c2 a b)

/-- Pull back a comparison along a function. -/
def pullCmp {α β : Type} (f : α → β) (cmp : β → β → Ordering) (a b : α) : Ordering :=
  cmp (f a) (f b)

/-- Lexicographic comparison of lists: a strict prefix is lower. -/
def listCmp {α : Type} (cmp : α → α → Ordering) : List α → List α → Ordering
  | [], [] => .eq
  | [], _ :: _ => .lt
  | _ :: _, [] => .gt
  | a :: as, b :: bs => (cmp a b).then (listCmp cmp as bs)

/-- The ten decimal digit characters. -/
def decDigits : List Char := ['0', '1', '2', '3', '4', '5', '6', '7', '8', '9']

/-- Decimal digit test (the character class 0-9). -/
def isDigitChar (c : Char) : Bool := decDigits.contains c

/-- The digit character for a value below ten (9 for anything larger). -/
def digitChar : Nat → Char
  | 0 => '0'
  | 1 => '1'
  | 2 => '2'
  | 3 => '3'
  | 4 => '4'
  | 5 => '5'
  | 6 => '6'
  | 7 => '7'
  | 8 => '8'
  | _ => '9'

/-- The numeric value of a digit character (0 for non-digits). -/
def digitVal (c : Char) : Nat :=
  if c = '0' then 0 else if c = '1' then 1 else if c = '2' then 2 else if c = '3' then 3
  else if c = '4' then 4 else if c = '5' then 5 else if c = '6' then 6 else if c = '7' then 7
  else if c = '8' then 8 else if c = '9' then 9 else 0

/-- Decimal rendering of a natural number, accumulator style (FormatUint),
with structural fuel (any fuel above the number computes the digits). -/
def natDigitsFuel : Nat → Nat → List Char → List Char
  | 0, _, acc => acc
  | fuel + 1, n, acc =>
    if n < 10 then digitChar n :: acc
    else natDigitsFuel fuel (n / 10) (digitChar (n % 10) :: acc)

/-- Decimal digit list of a natural number. -/
def natDigits (n : Nat) : List Char := natDigitsFuel (n + 1) n []

/-- Decimal rendering of a natural number as a string. -/
def natRepr (n : Nat) : String := String.mk (natDigits n)

/-- The value of a digit list, most significant first. -/
def digitsVal (cs : List Char) : Nat :=
  cs.foldl (fun a c => a * 10 + digitVal c) 0

/-- Split a character list on a separator character, keeping empty pieces
(the behavior of the Go strings.Split function for one-character separators). -/
def splitOnChar (sep : Char) : List Char → List (List Char)
  | [] => [[]]
  | c :: cs =>
    if c = sep then [] :: splitOnChar sep cs
    else
      match splitOnChar sep cs with
      | [] => [[c]]
      | p :: ps => (c :: p) :: ps

/-- Split at the first occurrence of a separator: the part before it and,
when the separator occurs, the part after it. -/
def splitFirst (sep : Char) : List Char → List Char × Option (List Char)
  | [] => ([], none)
  | c :: cs =>
    if c = sep then ([], some cs)
    else
      let r := splitFirst sep cs
      (c :: r.1, r.2)

/-- The SemVer identifier character class 0-9A-Za-z- (spec item 9 and 10). -/
def isIdentChar (c : Char) : Bool :=
  isDigitChar c || (65 ≤ c.toNat && c.toNat ≤ 90) || (97 ≤ c.toNat && c.toNat ≤ 122) || c = '-'

/-- A non-empty all-digit identifier (a numeric SemVer identifier). -/
def isNumericIdent (p : List Char) : Bool := !p.isEmpty && p.all isDigitChar

/-- A valid dot-separated SemVer identifier sequence: every piece non-empty
and over the identifier character class. -/
def validIdentSeq (cs : List Char) : Bool :=
  (splitOnChar '.' cs).all (fun p => !p.isEmpty && p.all isIdentChar)

/-! ### The version data model

Modelled from the spec: the SemanticVersion data model (spec section 3) of the
external go-version collaborator, whose source is not part of the repository:
three numeric segments, a prerelease identifier sequence and a build-metadata
identifier sequence, both stored in their rendered dot-joined form. -/

structure Version where
  major : Nat
  minor : Nat
  patch : Nat
  prerelease : String
  metadata : String
deriving DecidableEq, Repr

/-- Character comparison by code point. -/
def charCmp (a b : Char) : Ordering := compare a.toNat b.toNat

/-- Comparison of single prerelease identifiers, modelled from the spec:
numeric identifiers compare numerically, alphanumeric ones lexically, and a
numeric identifier is lower than an alphanumeric one. -/
def identCmp (a b : List Char) : Ordering :=
  if isNumericIdent a then
    if isNumericIdent b then compare (digitsVal a) (digitsVal b) else .lt
  else
    if isNumericIdent b then .gt else listCmp charCmp a b

/-- Comparison of prerelease fields, modelled from the spec: the empty
prerelease (a stable version) is above every non-empty one; otherwise the
identifier sequences compare lexicographically, a strict prefix being lower. -/
def prereleaseCmp (a b : List Char) : Ordering :=
  if a.isEmpty then
    if b.isEmpty then .eq else .gt
  else
    if b.isEmpty then .lt
    else listCmp identCmp (splitOnChar '.' a) (splitOnChar '.' b)

/-- Version precedence comparison, modelled from the spec: segments compare
numerically in order, then the prerelease rule; build metadata is ignored. -/
def versionCmp : Version → Version → Ordering :=
  thenCmp (pullCmp (fun v => v.major) (fun a b => compare a b))
    (thenCmp (pullCmp (fun v => v.minor) (fun a b => compare a b))
      (thenCmp (pullCmp (fun v => v.patch) (fun a b => compare a b))
        (pullCmp (fun v => v.prerelease.data) prereleaseCmp)))

/-- The GreaterThan test of the version collaborator. -/
def versionGT (v w : Version) : Bool := versionCmp v w == .gt

/-- The Equal test of the version collaborator (precedence equality,
metadata ignored). -/
def versionEQ (v w : Version) : Bool := versionCmp v w == .eq

/-! ### Version parsing and rendering

Modelled from the spec (section 4.1): the Version Parser strips an optional
leading v, parses a numeric core of dot-separated digit groups (up to three
segments are modelled; the engine only ever constructs three-segment
versions), then an optional -prerelease and +metadata suffix whose
identifier sequences must be over the SemVer identifier grammar. -/

/-- Strip one leading v character. -/
def stripV (cs : List Char) : List Char :=
  match cs with
  | c :: rest => if c = 'v' then rest else cs
  | [] => cs

/-- Parse the numeric core: one to three dot-separated digit groups,
missing segments defaulting to zero. -/
def parseCore (cs : List Char) : Option (Nat × Nat × Nat) :=
  let parts := splitOnChar '.' cs
  if parts.all (fun p => !p.isEmpty && p.all isDigitChar) then
    match parts with
    | [a] => some (digitsVal a, 0, 0)
    | [a, b] => some (digitsVal a, digitsVal b, 0)
    | [a, b, c] => some (digitsVal a, digitsVal b, digitsVal c)
    | _ => none
  else none

/-- Parse a version from its character list (after the v strip): split off
metadata at the first plus, a prerelease at the first dash, then the core. -/
def parseVersionChars (cs : List Char) : Option Version :=
  let sp := splitFirst '+' cs
  let sd := splitFirst '-' sp.1
  (parseCore sd.1).bind (fun t =>
    if ((match sd.2 with | none => true | some p => validIdentSeq p)
        && (match sp.2 with | none => true | some m => validIdentSeq m)) = true then
      some ⟨t.1, t.2.1, t.2.2, String.mk (sd.2.getD []), String.mk (sp.2.getD [])⟩
    else none)

/-- The parseVersion function: normalizes a tag string with an optional
leading v into a structured version, None on failure. -/
def parseVersion (s : String) : Option Version :=
  parseVersionChars (stripV s.data)

/-- The numeric core of a version, rendered. -/
def coreChars (v : Version) : List Char :=
  natDigits v.major ++ ('.' :: (natDigits v.minor ++ ('.' :: natDigits v.patch)))

/-- Rendering of a version (the String method of the version collaborator,
modelled from the spec's output format). -/
def renderChars (v : Version) : List Char :=
  coreChars v
    ++ (if v.prerelease.data = [] then [] else '-' :: v.prerelease.data)
    ++ (if v.metadata.data = [] then [] else '+' :: v.metadata.data)

/-- Rendering of a version as a string. -/
def render (v : Version) : String := String.mk (renderChars v)

inductive Bumper where
  | patch
  | minor
  | major
deriving DecidableEq, Repr

/-- Modelled from the spec: applying a bump magnitude to a version. -/
def Bumper.bump : Bumper → Version → Version
  | .major, v => ⟨v.major + 1, 0, 0, "", ""⟩
  | .minor, v => ⟨v.major, v.minor + 1, 0, "", ""⟩
  | .patch, v => ⟨v.major, v.minor, v.patch + 1, "", ""⟩

/-! ### Commit classification -/

/-- The Go word character class for the regex token type (letters, digits,
underscore). -/
def isGoWordChar (c : Char) : Bool :=
  isDigitChar c || (65 ≤ c.toNat && c.toNat ≤ 90) || (97 ≤ c.toNat && c.toNat ≤ 122) || c = '_'

/-- The Go regex whitespace class (space, tab, newline, form feed, carriage
return). -/
def isGoSpace (c : Char) : Bool :=
  c = ' ' || c = '\t' || c = '\n' || c = Char.ofNat 12 || c = '\r'

/-- ASCII lowercase conversion (the case folding of the case-insensitive
token regexes, which only involve ASCII letters). -/
def lowerChar (c : Char) : Char :=
  if 65 ≤ c.toNat ∧ c.toNat ≤ 90 then Char.ofNat (c.toNat + 32) else c

/-- Substring search: does the second list occur inside the first? -/
def hasSub (pat : List Char) : List Char → Bool
  | [] => pat.isPrefixOf []
  | c :: t => pat.isPrefixOf (c :: t) || hasSub pat t

/-- Case-insensitive containment of a token in a commit message (the
behavior of the case-insensitive token regexes on the whole message). -/
def containsCI (msg pat : String) : Bool :=
  hasSub (pat.data.map lowerChar) (msg.data.map lowerChar)

/-- The parseAutotagCommit function: the autotag (default) commit scheme.
The three case-insensitive token regexes are matched against the whole
message, major winning over minor over patch; None when no token occurs. -/
def parseAutotagCommit (msg : String) : Option Bumper :=
  if containsCI msg "[major]" || containsCI msg "#major" then some .major
  else if containsCI msg "[minor]" || containsCI msg "#minor" then some .minor
  else if containsCI msg "[patch]" || containsCI msg "#patch" then some .patch
  else none

/-- The conventional commit authorized type table. -/
def conventionalCommitAuthorizedTypes : List (String × Bumper) :=
  [("feat", .minor), ("build", .patch), ("chore", .patch), ("ci", .patch),
   ("docs", .patch), ("fix", .patch), ("perf", .patch), ("refactor", .patch),
   ("revert", .patch), ("style", .patch), ("test", .patch)]

/-- Authorized-type lookup: the bumper for a header type, None when the type
is not in the table. -/
def authorizedLookup (t : String) : Option Bumper :=
  (conventionalCommitAuthorizedTypes.find? (fun p => p.1 == t)).map (fun p => p.2)

/-- The conventional commit header regex, embedded deterministically: skip
leading whitespace, take a maximal run of word characters as the type
(failing if empty), then an optional parenthesized scope (or a lone opening
parenthesis), then an optional exclamation mark (the breaking marker).
Returns the captured type and whether the breaking marker matched. -/
def headerParse (msg : String) : Option (String × Bool) :=
  let cs := msg.data.dropWhile isGoSpace
  let t := cs.takeWhile isGoWordChar
  if t = [] then none
  else
    let rest := cs.dropWhile isGoWordChar
    let afterScope :=
      match rest with
      | '(' :: r1 =>
        let r2 := r1.dropWhile (fun c => !(c = '(' || c = ')' || c = '\r' || c = '\n'))
        match r2 with
        | ')' :: r3 => r3
        | _ => r1
      | _ => rest
    let bang := match afterScope with
      | '!' :: _ => true
      | _ => false
    some (String.mk t, bang)

/-- The BREAKING CHANGE footer test: the message contains a newline followed
by the footer marker. -/
def hasBreakingFooter (msg : String) : Bool :=
  hasSub ("\nBREAKING CHANGE:".data) msg.data

/-- The type capture of the header regex (empty when the regex fails, which
is also how the Go map lookup sees a missing capture). -/
def conventionalType (msg : String) : String :=
  match headerParse msg with
  | some (t, _) => t
  | none => ""

/-- The breaking capture of the header regex: did the exclamation mark
match? False when the regex fails. -/
def conventionalBang (msg : String) : Bool :=
  match headerParse msg with
  | some (_, b) => b
  | none => false

/-- The parseConventionalCommit function: under strict match an unauthorized
header type yields None before the breaking-change checks; otherwise a
BREAKING CHANGE footer or a breaking marker forces major, and otherwise the
authorized table decides (None for unknown types). -/
def parseConventionalCommit (msg : String) (strictMatch : Bool) : Option Bumper :=
  let bumperType := authorizedLookup (conventionalType msg)
  if strictMatch && bumperType.isNone then none
  else if hasBreakingFooter msg then some .major
  else if conventionalBang msg then some .major
  else bumperType

/-- A commit: its identifier and its message. -/
structure Commit where
  id : String
  message : String
deriving DecidableEq, Repr

/-- The scheme switch of the parseCommit method: conventional, autotag (also
the default empty scheme), anything else classifying nothing. -/
def commitBumper (scheme : String) (strictMatch : Bool) (msg : String) : Option Bumper :=
  if scheme = "conventional" then parseConventionalCommit msg strictMatch
  else if scheme = "" ∨ scheme = "autotag" then parseAutotagCommit msg
  else none

/-- The parseCommit method: classification failure is fatal under strict
match (naming the commit), otherwise the bumper is applied to the current
version (None when nothing matched, for the caller to decide). -/
def parseCommit (scheme : String) (strictMatch : Bool) (cur : Version) (c : Commit) :
    Except String (Option Version) :=
  let b := commitBumper scheme strictMatch c.message
  if strictMatch && b.isNone then
    .error ("no match found for commit " ++ c.id)
  else
    .ok (b.map (fun bp => bp.bump cur))

/-! ### Unsigned integer parsing (strconv.ParseUint base 10, 64 bits) -/

/-- Parse a decimal unsigned 64-bit integer: non-empty, all digits, value
below 2^64 (leading zeros allowed, signs rejected). -/
def parseUint64 (s : String) : Option Nat :=
  if s.data ≠ [] ∧ s.data.all isDigitChar = true ∧ digitsVal s.data < 2 ^ 64 then
    some (digitsVal s.data)
  else none

/-! ### The commit walk of calcVersion -/

/-- The commit loop of calcVersion: commits processed in chronological
order, keeping the greatest bumped version seen (starting from the current
version), propagating strict-match classification errors. -/
def bumpWalk (scheme : String) (strict : Bool) (cur : Version) :
    List Commit → Version → Except String Version
  | [], acc => .ok acc
  | c :: cs, acc =>
    match parseCommit scheme strict cur c with
    | .error e => .error e
    | .ok none => bumpWalk scheme strict cur cs acc
    | .ok (some v) => bumpWalk scheme strict cur cs (if versionGT v acc then v else acc)

/-- The bump-selection part of calcVersion: an empty revision list is fatal
under strict match; the walk runs over the reversed (chronological) list;
if no commit moved the version, strict match is fatal and otherwise a patch
bump is applied. -/
def calcBumpedVersion (scheme : String) (strict : Bool) (cur : Version)
    (revList : List Commit) : Except String Version :=
  if revList.length = 0 ∧ strict = true then .error "no version to bump for the same commit"
  else
    match bumpWalk scheme strict cur revList.reverse cur with
    | .error e => .error e
    | .ok nv =>
      if versionEQ nv cur then
        if strict then .error "no version to bump found in commit message"
        else .ok (Bumper.patch.bump cur)
      else .ok nv

/-! ### The tag index (parseTags) -/

/-- The state parseTags stores: the highest-precedence parsed tag, the
latest matching prerelease (if any), and the baseline stable version. -/
structure TagIndex where
  latestTagVersion : Version
  curPreReleaseVer : Option Version
  currentVersion : Version
deriving DecidableEq, Repr

/-- Insertion into a descending-sorted list (the descending sort of the
parsed tag versions; iteration order of the Go tag map only affects the
relative order of precedence-equal versions, which no claim depends on). -/
def sortInsert (v : Version) : List Version → List Version
  | [] => [v]
  | w :: ws => if versionCmp v w = .lt then w :: sortInsert v ws else v :: w :: ws

/-- Descending sort by version precedence. -/
def sortDesc (l : List Version) : List Version := l.foldr sortInsert []

/-- The scan loop of parseTags over the descending keys: record the first
prerelease whose identifiers start with the configured name and a dot, stop
at the first stable version, and fail when none exists. -/
def scanKeys (name : String) : List Version → Option Version → Except String (Option Version × Version)
  | [], _ => .error "no stable (non pre-release) version tags found"
  | v :: vs, curPre =>
    let curPre' := if name ≠ "" ∧ v.prerelease ≠ "" ∧ curPre = none
        ∧ (name ++ ".").data.isPrefixOf v.prerelease.data = true then some v else curPre
    if v.prerelease = "" then .ok (curPre', v)
    else scanKeys name vs curPre'

/-- The parseTags method: parse every tag (skipping unparseable ones), sort
descending, then scan. The commit lookup of the storage collaborator is out
of scope. -/
def parseTags (name : String) (tags : List String) : Except String TagIndex :=
  let keys := sortDesc (tags.filterMap parseVersion)
  match keys with
  | [] => .error "no stable (non pre-release) version tags found"
  | k0 :: _ =>
    match scanKeys name keys none with
    | .error e => .error e
    | .ok (cp, cur) => .ok ⟨k0, cp, cur⟩

/-! ### Pre-release composition -/

/-- The buffer construction of the preReleaseVersion function: the name,
then either the timestamp (from the clock collaborator, which maps a layout
to the rendered UTC timestamp) or the auto-increment number, dot-separated
when the name is non-empty. -/
def preReleaseBuf (curPrereleaseVer : Option Version) (name tsLayout : String)
    (autoIncrease : Bool) (clock : String → String) : Except String String :=
  if tsLayout.data ≠ [] then
    .ok (if name.data ≠ [] then name ++ "." ++ clock tsLayout else clock tsLayout)
  else if name.data ≠ [] ∧ autoIncrease = true then
    match curPrereleaseVer with
    | none => .ok (name ++ "." ++ "1")
    | some p =>
      match splitOnChar '.' p.prerelease.data with
      | [_, num] =>
        match parseUint64 (String.mk num) with
        | some n => .ok (name ++ "." ++ natRepr ((n + 1) % 2 ^ 64))
        | none => .error "prerelease build number must be a unsigned integer"
      | _ => .ok (name ++ "." ++ "1")
  else .ok name

/-- The preReleaseVersion function: identity when neither a name nor a
timestamp layout is configured, defensive failure when the input already
carries a prerelease, otherwise the composed string is appended after a
dash and reparsed. -/
def preReleaseVersion (v : Version) (curPrereleaseVer : Option Version)
    (name tsLayout : String) (autoIncrease : Bool) (clock : String → String) :
    Except String Version :=
  if name.data = [] ∧ tsLayout.data = [] then .ok v
  else if v.prerelease.data ≠ [] then
    .error "*version.Version already has a PreRelease value set"
  else
    match preReleaseBuf curPrereleaseVer name tsLayout autoIncrease clock with
    | .error e => .error e
    | .ok buf =>
      match parseVersion (String.mk (renderChars v ++ '-' :: buf.data)) with
      | some w => .ok w
      | none => .error ("Malformed version: " ++ render v ++ "-" ++ buf)

/-! ### The resolution pipeline -/

/-- The resolution configuration (GitRepoConfig without the storage paths;
TagV models the Prefix option, which only affects the final tag string). -/
structure Config where
  PreReleaseName : String
  PreReleaseTimestampLayout : String
  PreReleaseNumber : Bool
  BuildMetadata : String
  Scheme : String
  TagV : Bool
  StrictMatch : Bool
  BuildNumber : Bool
deriving DecidableEq, Repr

/-- The build-number counter step of calcVersion: an empty metadata field
counts as zero prior builds, a numeric one is incremented (64-bit unsigned
arithmetic), anything else is fatal. -/
def nextBuildMeta (metadata : String) : Except String String :=
  if metadata = "" then .ok "1"
  else
    match parseUint64 metadata with
    | some n => .ok (natRepr ((n + 1) % 2 ^ 64))
    | none => .error "build number must be a unsigned integer"

/-- The calcVersion method after the tag index is built: bump selection over
the commit range, then optional pre-release composition, then build-number
or literal build metadata composition. The build-number counter is read
from the metadata field of the highest-precedence tag (latestTagVersion). -/
def calcVersion (cfg : Config) (idx : TagIndex) (revList : List Commit)
    (clock : String → String) : Except String Version :=
  match calcBumpedVersion cfg.Scheme cfg.StrictMatch idx.currentVersion revList with
  | .error e => .error e
  | .ok nv =>
    match (if cfg.PreReleaseName.data ≠ [] ∨ cfg.PreReleaseTimestampLayout.data ≠ [] then
        preReleaseVersion nv idx.curPreReleaseVer cfg.PreReleaseName
          cfg.PreReleaseTimestampLayout cfg.PreReleaseNumber clock
      else .ok nv) with
    | .error e => .error e
    | .ok nv2 =>
      if cfg.BuildNumber then
        if cfg.BuildMetadata ≠ "" then .error "cannot input custom method if enable build number"
        else
          match nextBuildMeta idx.latestTagVersion.metadata with
          | .error e => .error e
          | .ok bm =>
            match parseVersion (String.mk (renderChars nv2 ++ '+' :: bm.data)) with
            | some w => .ok w
            | none => .error ("Malformed version: " ++ render nv2 ++ "+" ++ bm)
      else if cfg.BuildMetadata ≠ "" then
        match parseVersion (String.mk (renderChars nv2 ++ '+' :: cfg.BuildMetadata.data)) with
        | some w => .ok w
        | none => .error ("Malformed version: " ++ render nv2 ++ "+" ++ cfg.BuildMetadata)
      else .ok nv2

/-- One resolution run: build the tag index, then calculate the version. -/
def resolveVersion (cfg : Config) (tags : List String) (revList : List Commit)
    (clock : String → String) : Except String Version :=
  match parseTags cfg.PreReleaseName tags with
  | .error e => .error e
  | .ok idx => calcVersion cfg idx revList clock

/-! ### Configuration validation and the constructor -/

/-- The validateSemVerBuildMetadata function: every dot-separated identifier
non-empty and over the identifier character class. -/
def validateSemVerBuildMetadata (meta : String) : Bool :=
  (splitOnChar '.' meta.data).all (fun s => !s.isEmpty && s.all isIdentChar)

/-- The validateSemVerPreReleaseName function: every dot-separated
identifier non-empty, not starting with the character 0, and over the
identifier character class. -/
def validateSemVerPreReleaseName (meta : String) : Bool :=
  (splitOnChar '.' meta.data).all (fun s =>
    !s.isEmpty && !(['0'].isPrefixOf s) && s.all isIdentChar)

/-- The validateConfig function, checks in source order. -/
def validateConfig (cfg : Config) : Except String Unit :=
  if cfg.BuildMetadata ≠ "" ∧ validateSemVerBuildMetadata cfg.BuildMetadata = false then
    .error ("'" ++ cfg.BuildMetadata ++ "' is not valid SemVer build metadata")
  else if cfg.BuildNumber = true ∧ cfg.BuildMetadata ≠ "" then
    .error ("'" ++ cfg.BuildMetadata ++ "' is not valid, cannot input metadata if enable build number")
  else if cfg.PreReleaseName ≠ "" ∧ validateSemVerPreReleaseName cfg.PreReleaseName = false then
    .error ("'" ++ cfg.PreReleaseName ++ "' is not valid SemVer pre-release name")
  else if cfg.PreReleaseTimestampLayout = "" ∨ cfg.PreReleaseTimestampLayout = "datetime"
      ∨ cfg.PreReleaseTimestampLayout = "epoch" then
    .ok ()
  else
    .error ("pre-release-timestamp '" ++ cfg.PreReleaseTimestampLayout
      ++ "' is not valid; must be (datetime|epoch)")

/-- The NewRepo constructor restricted to the engine: validation first (before
any access to the repository state), then the datetime layout substitution,
then one resolution run over the repository snapshot. Branch selection and
storage access are the out-of-scope collaborator. -/
def NewRepo (cfg : Config) (tags : List String) (revList : List Commit)
    (clock : String → String) : Except String Version :=
  match validateConfig cfg with
  | .error e => .error e
  | .ok _ =>
    let cfg' := if cfg.PreReleaseTimestampLayout = "datetime" then
        { cfg with PreReleaseTimestampLayout := "20060102150405" }
      else cfg
    resolveVersion cfg' tags revList clock

/-! ### Small facts about the embedded operations -/

/-- The first line of a commit message (the commit header). -/
def messageHeader (msg : String) : String :=
  String.mk (msg.data.takeWhile (fun c => !(c = '\n')))

/-! ### Claim theorems -/

/-- The total order on bump magnitudes: patch below minor below major. -/
def Bumper.rank : Bumper → Nat
  | .patch => 0
  | .minor => 1
  | .major => 2

/-- Accumulate the maximum magnitude. -/
def optMaxBumper (acc : Option Bumper) (b : Bumper) : Option Bumper :=
  some (match acc with
    | none => b
    | some a => if a.rank < b.rank then b else a)

/-- The maximum magnitude of a list of magnitudes (None for the empty list). -/
def maxMagnitude (bs : List Bumper) : Option Bumper :=
  bs.foldl optMaxBumper none

/-- One classification step: skip an unclassified message, otherwise
accumulate the maximum magnitude. -/
def classifyStep (scheme : String) (strict : Bool) (acc : Option Bumper)
    (m : String) : Option Bumper :=
  match commitBumper scheme strict m with
  | none => acc
  | some b => optMaxBumper acc b

/-- Classification fold over commit messages: skip unclassified messages,
accumulate the maximum magnitude of the classified ones. -/
def classifyFold (scheme : String) (strict : Bool) (acc : Option Bumper)
    (msgs : List String) : Option Bumper :=
  msgs.foldl (classifyStep scheme strict) acc

/-- The version a magnitude accumulator denotes: the current version when
nothing classified, the bumped version otherwise. -/
def embedAcc (cur : Version) : Option Bumper → Version
  | none => cur
  | some b => b.bump cur

theorem ordering_then_gt {a b : Ordering} : a.then b = .gt ↔ a = .gt ∨ (a = .eq ∧ b = .gt) := by
  cases a <;> cases b <;> simp [Ordering.then]

theorem ordering_then_eq {a b : Ordering} : a.then b = .eq ↔ a = .eq ∧ b = .eq := by
  cases a <;> cases b <;> simp [Ordering.then]

theorem ordering_then_lt {a b : Ordering} : a.then b = .lt ↔ a = .lt ∨ (a = .eq ∧ b = .lt) := by
  cases a <;> cases b <;> simp [Ordering.then]

theorem ordering_swap_then (a b : Ordering) : (a.then b).swap = a.swap.then b.swap := by
  cases a <;> cases b <;> rfl

theorem ordering_swap_eq_gt {a : Ordering} : a.swap = .gt ↔ a = .lt := by
  cases a <;> simp [Ordering.swap]

theorem ordering_swap_eq_eq {a : Ordering} : a.swap = .eq ↔ a = .eq := by
  cases a <;> simp [Ordering.swap]

theorem ordering_swap_eq_lt {a : Ordering} : a.swap = .lt ↔ a = .gt := by
  cases a <;> simp [Ordering.swap]

namespace LawfulCmp

variable {α : Type} {cmp : α → α → Ordering}

theorem eqCongrRight (h : LawfulCmp cmp) {b c : α} (a : α) (hbc : cmp b c = .eq) :
    cmp a b = cmp a c := by
  have hcb : cmp c b = .eq := by
    have := h.swap b c
    rw [hbc] at this
    exact (ordering_swap_eq_eq.mp this.symm)
  have h1 := h.eqCongr c b a hcb
  have h2 := h.swap a b
  have h3 := h.swap a c
  rw [h2, h3, h1]

theorem ltOfSwapGt (h : LawfulCmp cmp) {a b : α} (hab : cmp a b = .gt) : cmp b a = .lt := by
  have := h.swap a b
  rw [hab] at this
  exact ordering_swap_eq_gt.mp this.symm

theorem gtOfSwapLt (h : LawfulCmp cmp) {a b : α} (hab : cmp a b = .lt) : cmp b a = .gt := by
  have := h.swap a b
  rw [hab] at this
  exact ordering_swap_eq_lt.mp this.symm

/-- Transitivity of the reflexive relation (not lt). -/
theorem transGe (h : LawfulCmp cmp) {a b c : α}
    (hab : cmp a b ≠ .lt) (hbc : cmp b c ≠ .lt) : cmp a c ≠ .lt := by
  rcases ha : cmp a b with _ | _ | _
  · exact absurd ha hab
  · rw [h.eqCongr a b c ha]
    exact hbc
  · rcases hb : cmp b c with _ | _ | _
    · exact absurd hb hbc
    · rw [h.eqCongrRight a hb] at ha
      simp [ha]
    · simp [h.transGt a b c ha hb]

end LawfulCmp

theorem lawful_nat_compare : LawfulCmp (fun a b : Nat => compare a b) := by
  refine ⟨?_, ?_, ?_, ?_⟩
  · intro a
    simpa using Nat.compare_eq_eq.mpr rfl
  · intro a b
    rcases Nat.lt_trichotomy a b with h | h | h
    · rw [Nat.compare_eq_lt.mpr h, Nat.compare_eq_gt.mpr h]
      rfl
    · rw [h, Nat.compare_eq_eq.mpr rfl]
      rfl
    · rw [Nat.compare_eq_gt.mpr h, Nat.compare_eq_lt.mpr h]
      rfl
  · intro a b c hab hbc
    exact Nat.compare_eq_gt.mpr (Nat.lt_trans (Nat.compare_eq_gt.mp hbc) (Nat.compare_eq_gt.mp hab))
  · intro a b c hab
    rw [Nat.compare_eq_eq.mp hab]

theorem lawful_thenCmp {α : Type} {c1 c2 : α → α → Ordering}
    (h1 : LawfulCmp c1) (h2 : LawfulCmp c2) : LawfulCmp (thenCmp c1 c2) := by
  refine ⟨?_, ?_, ?_, ?_⟩
  · intro a
    simp [thenCmp, h1.refl, h2.refl, Ordering.then]
  · intro a b
    simp [thenCmp, h1.swap a b, h2.swap a b, ordering_swap_then]
  · intro a b c hab hbc
    rw [thenCmp, ordering_then_gt] at hab hbc ⊢
    rcases hab with hab | ⟨hab, hab2⟩
    · rcases hbc with hbc | ⟨hbc, _⟩
      · exact Or.inl (h1.transGt a b c hab hbc)
      · exact Or.inl (by rw [h1.eqCongrRight a hbc] at hab; exact hab)
    · rcases hbc with hbc | ⟨hbc, hbc2⟩
      · exact Or.inl (by rw [h1.eqCongr a b c hab]; exact hbc)
      · refine Or.inr ⟨by rw [h1.eqCongr a b c hab]; exact hbc, ?_⟩
        exact h2.transGt a b c hab2 hbc2
  · intro a b c hab
    rw [thenCmp, ordering_then_eq] at hab
    rw [thenCmp, thenCmp, h1.eqCongr a b c hab.1, h2.eqCongr a b c hab.2]

theorem lawful_pullCmp {α β : Type} (f : α → β) {cmp : β → β → Ordering}
    (h : LawfulCmp cmp) : LawfulCmp (pullCmp f cmp) := by
  refine ⟨fun a => h.refl (f a), fun a b => h.swap (f a) (f b),
    fun a b c hab hbc => h.transGt (f a) (f b) (f c) hab hbc,
    fun a b c hab => h.eqCongr (f a) (f b) (f c) hab⟩

theorem lawful_listCmp {α : Type} {cmp : α → α → Ordering}
    (h : LawfulCmp cmp) : LawfulCmp (listCmp cmp) := by
  refine ⟨?_, ?_, ?_, ?_⟩
  · intro a
    induction a with
    | nil => rfl
    | cons x xs ih => simp [listCmp, h.refl, ih, Ordering.then]
  · intro a
    induction a with
    | nil => intro b; cases b <;> rfl
    | cons x xs ih =>
      intro b
      cases b with
      | nil => rfl
      | cons y ys => simp [listCmp, h.swap x y, ih ys, ordering_swap_then]
  · intro a
    induction a with
    | nil => intro b c hab _; cases b <;> simp [listCmp] at hab
    | cons x xs ih =>
      intro b c hab hbc
      cases b with
      | nil => cases c <;> simp [listCmp] at hbc
      | cons y ys =>
        cases c with
        | nil => rfl
        | cons z zs =>
          rw [listCmp, ordering_then_gt] at hab hbc ⊢
          rcases hab with hab | ⟨hab, hab2⟩
          · rcases hbc with hbc | ⟨hbc, _⟩
            · exact Or.inl (h.transGt x y z hab hbc)
            · exact Or.inl (by rw [h.eqCongrRight x hbc] at hab; exact hab)
          · rcases hbc with hbc | ⟨hbc, hbc2⟩
            · exact Or.inl (by rw [h.eqCongr x y z hab]; exact hbc)
            · exact Or.inr ⟨by rw [h.eqCongr x y z hab]; exact hbc, ih ys zs hab2 hbc2⟩
  · intro a
    induction a with
    | nil =>
      intro b c hab
      cases b <;> simp [listCmp] at hab ⊢
    | cons x xs ih =>
      intro b c hab
      cases b with
      | nil => simp [listCmp] at hab
      | cons y ys =>
        rw [listCmp, ordering_then_eq] at hab
        cases c with
        | nil => rfl
        | cons z zs =>
          rw [listCmp, listCmp, h.eqCongr x y z hab.1, ih ys zs hab.2]

/-! ### Decimal digits -/

theorem digitChar_isDigit {r : Nat} (h : r < 10) : isDigitChar (digitChar r) = true := by
  interval_cases r <;> decide

theorem digitVal_digitChar {r : Nat} (h : r < 10) : digitVal (digitChar r) = r := by
  interval_cases r <;> decide

theorem isDigitChar_ne (c : Char) (h : isDigitChar c = true) :
    c ≠ '.' ∧ c ≠ '-' ∧ c ≠ '+' ∧ c ≠ 'v' := by
  have hm : c ∈ decDigits := by simpa [isDigitChar, List.contains_iff_exists_mem_beq] using h
  fin_cases hm <;> decide

theorem natDigitsFuel_append (fuel : Nat) :
    ∀ n acc, n < fuel → natDigitsFuel fuel n acc = natDigitsFuel fuel n [] ++ acc := by
  induction fuel with
  | zero => intro n acc h; omega
  | succ f ih =>
    intro n acc h
    by_cases h10 : n < 10
    · rw [natDigitsFuel, natDigitsFuel, if_pos h10, if_pos h10]
      rfl
    · have hd : n / 10 < f := by
        have := Nat.div_lt_self (n := n) (k := 10) (by omega) (by omega)
        omega
      rw [natDigitsFuel, natDigitsFuel, if_neg h10, if_neg h10,
        ih (n / 10) _ hd, ih (n / 10) [digitChar (n % 10)] hd]
      simp

theorem natDigitsFuel_irrel (f1 : Nat) :
    ∀ f2 n acc, n < f1 → n < f2 → natDigitsFuel f1 n acc = natDigitsFuel f2 n acc := by
  induction f1 with
  | zero => intro f2 n acc h; omega
  | succ a ih =>
    intro f2 n acc h1 h2
    rcases f2 with _ | b
    · omega
    · by_cases h10 : n < 10
      · rw [natDigitsFuel, natDigitsFuel, if_pos h10, if_pos h10]
      · have hda : n / 10 < a := by
          have := Nat.div_lt_self (n := n) (k := 10) (by omega) (by omega)
          omega
        have hdb : n / 10 < b := by
          have := Nat.div_lt_self (n := n) (k := 10) (by omega) (by omega)
          omega
        rw [natDigitsFuel, natDigitsFuel, if_neg h10, if_neg h10, ih _ _ _ hda hdb]

theorem natDigits_eq (n : Nat) :
    natDigits n =
      if n < 10 then [digitChar n]
      else natDigits (n / 10) ++ [digitChar (n % 10)] := by
  rw [natDigits, natDigitsFuel]
  by_cases h : n < 10
  · rw [if_pos h, if_pos h]
  · have hd : n / 10 < n := Nat.div_lt_self (by omega) (by omega)
    rw [if_neg h, if_neg h, natDigitsFuel_append n (n / 10) _ (by omega),
      natDigitsFuel_irrel n (n / 10 + 1) (n / 10) [] (by omega) (by omega), natDigits]

theorem natDigits_all_digit (n : Nat) : ∀ c ∈ natDigits n, isDigitChar c = true := by
  induction n using Nat.strong_induction_on with
  | _ n ih =>
    rw [natDigits_eq]
    by_cases h : n < 10
    · rw [if_pos h]
      intro c hc
      rcases List.mem_singleton.mp hc with rfl
      exact digitChar_isDigit h
    · rw [if_neg h]
      intro c hc
      rcases List.mem_append.mp hc with hc | hc
      · exact ih (n / 10) (Nat.div_lt_self (by omega) (by omega)) c hc
      · rcases List.mem_singleton.mp hc with rfl
        exact digitChar_isDigit (Nat.mod_lt _ (by omega))

theorem natDigits_ne_nil (n : Nat) : natDigits n ≠ [] := by
  rw [natDigits_eq]
  by_cases h : n < 10 <;> simp [h]

theorem digitsVal_fold_natDigits (n : Nat) :
    ∀ i : Nat, (natDigits n).foldl (fun a c => a * 10 + digitVal c) i =
      i * 10 ^ (natDigits n).length + n := by
  induction n using Nat.strong_induction_on with
  | _ n ih =>
    intro i
    rw [natDigits_eq]
    by_cases h : n < 10
    · rw [if_pos h]
      simp [digitVal_digitChar h]
    · rw [if_neg h, List.foldl_append]
      have hd : n / 10 < n := Nat.div_lt_self (by omega) (by omega)
      rw [ih (n / 10) hd i]
      have hmod : n % 10 < 10 := Nat.mod_lt _ (by omega)
      simp only [List.foldl_cons, List.foldl_nil, List.length_append, List.length_cons,
        List.length_nil, digitVal_digitChar hmod]
      rw [pow_succ]
      have hsplit : (i * 10 ^ (natDigits (n / 10)).length + n / 10) * 10 + n % 10 =
          i * (10 ^ (natDigits (n / 10)).length * 10) + (10 * (n / 10) + n % 10) := by ring
      rw [hsplit, Nat.div_add_mod]

theorem digitsVal_natDigits (n : Nat) : digitsVal (natDigits n) = n := by
  rw [digitsVal, digitsVal_fold_natDigits n 0]
  simp

/-! ### Splitting character lists -/

theorem splitOnChar_ne_nil (sep : Char) (l : List Char) : splitOnChar sep l ≠ [] := by
  induction l with
  | nil => simp [splitOnChar]
  | cons c cs ih =>
    rw [splitOnChar]
    by_cases h : c = sep
    · simp [h]
    · rw [if_neg h]
      rcases hs : splitOnChar sep cs with _ | ⟨p, ps⟩
      · simp
      · simp

theorem splitOnChar_no_sep (sep : Char) (l : List Char) (h : sep ∉ l) :
    splitOnChar sep l = [l] := by
  induction l with
  | nil => rfl
  | cons c cs ih =>
    have hc : ¬ c = sep := fun hceq => h (by simp [hceq])
    have hcs : sep ∉ cs := fun hm => h (List.mem_cons_of_mem c hm)
    rw [splitOnChar, if_neg hc, ih hcs]

theorem splitOnChar_append (sep : Char) (a b : List Char) (h : sep ∉ a) :
    splitOnChar sep (a ++ sep :: b) = a :: splitOnChar sep b := by
  induction a with
  | nil => simp [splitOnChar]
  | cons c cs ih =>
    have hc : ¬ c = sep := fun hceq => h (by simp [hceq])
    have hcs : sep ∉ cs := fun hm => h (List.mem_cons_of_mem c hm)
    rw [List.cons_append, splitOnChar, if_neg hc, ih hcs]

theorem splitFirst_no_sep (sep : Char) (l : List Char) (h : sep ∉ l) :
    splitFirst sep l = (l, none) := by
  induction l with
  | nil => rfl
  | cons c cs ih =>
    have hc : ¬ c = sep := fun hceq => h (by simp [hceq])
    have hcs : sep ∉ cs := fun hm => h (List.mem_cons_of_mem c hm)
    rw [splitFirst, if_neg hc, ih hcs]

theorem splitFirst_append (sep : Char) (a b : List Char) (h : sep ∉ a) :
    splitFirst sep (a ++ sep :: b) = (a, some b) := by
  induction a with
  | nil => simp [splitFirst]
  | cons c cs ih =>
    have hc : ¬ c = sep := fun hceq => h (by simp [hceq])
    have hcs : sep ∉ cs := fun hm => h (List.mem_cons_of_mem c hm)
    rw [List.cons_append, splitFirst, if_neg hc, ih hcs]

theorem splitFirst_append_cases (sep : Char) (a b : List Char) :
    splitFirst sep (a ++ sep :: b) = (a, some b) ∨
      ∃ p t, splitFirst sep (a ++ sep :: b) = (p, some (t ++ sep :: b)) := by
  induction a with
  | nil => exact Or.inl (by simp [splitFirst])
  | cons c cs ih =>
    by_cases hc : c = sep
    · refine Or.inr ⟨[], cs, ?_⟩
      subst hc
      simp [splitFirst]
    · rcases ih with ih | ⟨p, t, ih⟩
      · exact Or.inl (by rw [List.cons_append, splitFirst, if_neg hc]; simp [ih])
      · exact Or.inr ⟨c :: p, t, by rw [List.cons_append, splitFirst, if_neg hc]; simp [ih]⟩

/-! ### SemVer identifier characters -/

theorem isIdentChar_of_digit {c : Char} (h : isDigitChar c = true) : isIdentChar c = true := by
  simp [isIdentChar, h]

theorem isIdentChar_ne_dot {c : Char} (h : isIdentChar c = true) : c ≠ '.' := by
  intro hc
  subst hc
  exact absurd h (by decide)

theorem isIdentChar_ne_plus {c : Char} (h : isIdentChar c = true) : c ≠ '+' := by
  intro hc
  subst hc
  exact absurd h (by decide)

theorem lawful_charCmp : LawfulCmp charCmp :=
  lawful_pullCmp (fun c : Char => c.toNat) lawful_nat_compare

theorem charCmp_eq_iff {a b : Char} : charCmp a b = .eq ↔ a = b := by
  constructor
  · intro h
    exact Char.ext (UInt32.ext (Nat.compare_eq_eq.mp h))
  · intro h
    subst h
    exact lawful_charCmp.refl a

theorem listCmp_eq_of_elem_eq {α : Type} {cmp : α → α → Ordering}
    (helem : ∀ a b, cmp a b = .eq → a = b) :
    ∀ {l₁ l₂ : List α}, listCmp cmp l₁ l₂ = .eq → l₁ = l₂ := by
  intro l₁
  induction l₁ with
  | nil => intro l₂ h; cases l₂ <;> simp_all [listCmp]
  | cons x xs ih =>
    intro l₂ h
    cases l₂ with
    | nil => simp [listCmp] at h
    | cons y ys =>
      rw [listCmp, ordering_then_eq] at h
      rw [helem x y h.1, ih h.2]

theorem lawful_identCmp : LawfulCmp identCmp := by
  refine ⟨?_, ?_, ?_, ?_⟩
  · intro a
    rcases ha : isNumericIdent a <;>
      simp only [identCmp, ha, Bool.false_eq_true, if_true, if_false] <;>
      first
        | exact (lawful_listCmp lawful_charCmp).refl a
        | exact lawful_nat_compare.refl _
  · intro a b
    rcases ha : isNumericIdent a <;> rcases hb : isNumericIdent b <;>
      simp only [identCmp, ha, hb, Bool.false_eq_true, if_true, if_false] <;>
      first
        | rfl
        | exact (lawful_listCmp lawful_charCmp).swap a b
        | exact lawful_nat_compare.swap _ _
  · intro a b c hab hbc
    rcases ha : isNumericIdent a <;> rcases hb : isNumericIdent b <;>
      rcases hc : isNumericIdent c <;>
      simp only [identCmp, ha, hb, hc, Bool.false_eq_true, if_true, if_false] at hab hbc ⊢ <;>
      first
        | rfl
        | exact absurd hab (by decide)
        | exact absurd hbc (by decide)
        | exact (lawful_listCmp lawful_charCmp).transGt a b c hab hbc
        | exact lawful_nat_compare.transGt _ _ _ hab hbc
  · intro a b c hab
    rcases ha : isNumericIdent a <;> rcases hb : isNumericIdent b <;>
      simp only [identCmp, ha, hb, Bool.false_eq_true, if_true, if_false] at hab ⊢ <;>
      first
        | rfl
        | exact absurd hab (by decide)
        | simp only [Nat.compare_eq_eq.mp hab]
        | (have hba : a = b := listCmp_eq_of_elem_eq (fun x y h => charCmp_eq_iff.mp h) hab
           subst hba
           rfl)

theorem lawful_prereleaseCmp : LawfulCmp prereleaseCmp := by
  have hl : LawfulCmp (fun a b : List Char =>
      listCmp identCmp (splitOnChar '.' a) (splitOnChar '.' b)) :=
    lawful_pullCmp (splitOnChar '.') (lawful_listCmp lawful_identCmp)
  refine ⟨?_, ?_, ?_, ?_⟩
  · intro a
    rcases ha : a.isEmpty <;>
      simp only [prereleaseCmp, ha, Bool.false_eq_true, if_true, if_false] <;>
      first
        | rfl
        | exact hl.refl a
  · intro a b
    rcases ha : a.isEmpty <;> rcases hb : b.isEmpty <;>
      simp only [prereleaseCmp, ha, hb, Bool.false_eq_true, if_true, if_false] <;>
      first
        | rfl
        | exact hl.swap a b
  · intro a b c hab hbc
    rcases ha : a.isEmpty <;> rcases hb : b.isEmpty <;> rcases hc : c.isEmpty <;>
      simp only [prereleaseCmp, ha, hb, hc, Bool.false_eq_true,
        if_true, if_false] at hab hbc ⊢ <;>
      first
        | rfl
        | exact absurd hab (by decide)
        | exact absurd hbc (by decide)
        | exact hl.transGt a b c hab hbc
  · intro a b c hab
    rcases ha : a.isEmpty <;> rcases hb : b.isEmpty <;>
      simp only [prereleaseCmp, ha, hb, Bool.false_eq_true, if_true, if_false] at hab ⊢ <;>
      first
        | rfl
        | exact absurd hab (by decide)
        | (rcases hc : c.isEmpty <;>
            simp only [hc, Bool.false_eq_true, if_true, if_false] <;>
            first
              | rfl
              | exact hl.eqCongr a b c hab)

theorem lawful_versionCmp : LawfulCmp versionCmp :=
  lawful_thenCmp (lawful_pullCmp _ lawful_nat_compare)
    (lawful_thenCmp (lawful_pullCmp _ lawful_nat_compare)
      (lawful_thenCmp (lawful_pullCmp _ lawful_nat_compare)
        (lawful_pullCmp _ lawful_prereleaseCmp)))

theorem string_data_eq_nil_iff {s : String} : s.data = [] ↔ s = "" := by
  constructor
  · intro h
    exact String.ext h
  · intro h
    rw [h]

theorem mem_splitOnChar (sep : Char) (l : List Char) (c : Char) (h : c ∈ l) :
    c = sep ∨ ∃ p ∈ splitOnChar sep l, c ∈ p := by
  induction l with
  | nil => cases h
  | cons x xs ih =>
    rw [splitOnChar]
    by_cases hx : x = sep
    · rcases List.mem_cons.mp h with rfl | h
      · exact Or.inl hx
      · rcases ih h with h | ⟨p, hp, hcp⟩
        · exact Or.inl h
        · exact Or.inr ⟨p, by simp [hx, hp], hcp⟩
    · rw [if_neg hx]
      rcases hs : splitOnChar sep xs with _ | ⟨q, qs⟩
      · exact absurd hs (splitOnChar_ne_nil sep xs)
      · rcases List.mem_cons.mp h with rfl | h
        · exact Or.inr ⟨c :: q, by simp, by simp⟩
        · rcases ih h with h | ⟨p, hp, hcp⟩
          · exact Or.inl h
          · rw [hs] at hp
            rcases List.mem_cons.mp hp with rfl | hp
            · exact Or.inr ⟨x :: p, by simp, List.mem_cons_of_mem x hcp⟩
            · exact Or.inr ⟨p, by simp [hp], hcp⟩

theorem validIdentSeq_no_plus {m : List Char} (h : validIdentSeq m = true) : '+' ∉ m := by
  intro hm
  rcases mem_splitOnChar '.' m '+' hm with hc | ⟨p, hp, hcp⟩
  · exact absurd hc (by decide)
  · rw [validIdentSeq, List.all_eq_true] at h
    have := h p hp
    rw [Bool.and_eq_true, List.all_eq_true] at this
    exact isIdentChar_ne_plus (this.2 '+' hcp) rfl

theorem validIdentSeq_no_dot_pieces {m : List Char} (h : validIdentSeq m = true) :
    ∀ p ∈ splitOnChar '.' m, p ≠ [] ∧ ∀ c ∈ p, isIdentChar c = true := by
  intro p hp
  rw [validIdentSeq, List.all_eq_true] at h
  have := h p hp
  rw [Bool.and_eq_true, List.all_eq_true] at this
  exact ⟨by simpa using this.1, this.2⟩

theorem coreChars_mem {v : Version} {c : Char} (h : c ∈ coreChars v) :
    isDigitChar c = true ∨ c = '.' := by
  rw [coreChars] at h
  rcases List.mem_append.mp h with h | h
  · exact Or.inl (natDigits_all_digit _ c h)
  · rcases List.mem_cons.mp h with rfl | h
    · exact Or.inr rfl
    · rcases List.mem_append.mp h with h | h
      · exact Or.inl (natDigits_all_digit _ c h)
      · rcases List.mem_cons.mp h with rfl | h
        · exact Or.inr rfl
        · exact Or.inl (natDigits_all_digit _ c h)

theorem coreChars_no_plus (v : Version) : '+' ∉ coreChars v := by
  intro h
  rcases coreChars_mem h with h | h
  · exact (isDigitChar_ne '+' h).2.2.1 rfl
  · exact absurd h (by decide)

theorem coreChars_no_dash (v : Version) : '-' ∉ coreChars v := by
  intro h
  rcases coreChars_mem h with h | h
  · exact (isDigitChar_ne '-' h).2.1 rfl
  · exact absurd h (by decide)

theorem stripV_of_digit_head {cs : List Char} (r : List Char)
    (h : ∀ c ∈ cs, isDigitChar c = true) (hne : cs ≠ []) :
    stripV (cs ++ r) = cs ++ r := by
  rcases cs with _ | ⟨c, t⟩
  · exact absurd rfl hne
  · rw [List.cons_append, stripV,
      if_neg (fun hv => (isDigitChar_ne c (h c (by simp))).2.2.2 hv)]

theorem stripV_coreChars (v : Version) (r : List Char) :
    stripV (coreChars v ++ r) = coreChars v ++ r := by
  have h1 : coreChars v ++ r = natDigits v.major ++ ('.' :: natDigits v.minor
      ++ '.' :: natDigits v.patch ++ r) := by
    rw [coreChars]
    simp
  rw [h1, stripV_of_digit_head _ (natDigits_all_digit _) (natDigits_ne_nil _), ← h1]

theorem parseCore_coreChars (v : Version) :
    parseCore (coreChars v) = some (v.major, v.minor, v.patch) := by
  have hsplit : splitOnChar '.' (coreChars v) =
      [natDigits v.major, natDigits v.minor, natDigits v.patch] := by
    have hnd : ∀ n : Nat, '.' ∉ natDigits n := by
      intro n hm
      exact (isDigitChar_ne '.' (natDigits_all_digit n '.' hm)).1 rfl
    rw [coreChars, splitOnChar_append _ _ _ (hnd _), splitOnChar_append _ _ _ (hnd _),
      splitOnChar_no_sep _ _ (hnd _)]
  rw [parseCore]
  simp only [hsplit]
  rw [if_pos]
  · simp [digitsVal_natDigits]
  · rw [List.all_eq_true]
    intro p hp
    rw [Bool.and_eq_true, List.all_eq_true]
    fin_cases hp <;>
      exact ⟨by simp [natDigits_ne_nil], fun c hc => natDigits_all_digit _ c hc⟩

/-- Roundtrip: appending a dash and a valid identifier sequence to a rendered
core-only version parses back to the version with that prerelease. -/
theorem parse_render_pre (v : Version) (buf : List Char)
    (hpre : v.prerelease = "") (hmeta : v.metadata = "")
    (hbuf : validIdentSeq buf = true) :
    parseVersion (String.mk (renderChars v ++ '-' :: buf)) =
      some ⟨v.major, v.minor, v.patch, String.mk buf, ""⟩ := by
  have hrender : renderChars v = coreChars v := by
    rw [renderChars, hpre, hmeta]
    simp
  have hplus : '+' ∉ coreChars v ++ '-' :: buf := by
    intro hm
    rcases List.mem_append.mp hm with hm | hm
    · exact coreChars_no_plus v hm
    · rcases List.mem_cons.mp hm with hm | hm
      · exact absurd hm (by decide)
      · exact validIdentSeq_no_plus hbuf hm
  rw [parseVersion, hrender]
  have hdata : (String.mk (coreChars v ++ '-' :: buf)).data = coreChars v ++ '-' :: buf := rfl
  rw [hdata, stripV_coreChars, parseVersionChars]
  simp only [splitFirst_no_sep '+' _ hplus, splitFirst_append '-' _ _ (coreChars_no_dash v),
    parseCore_coreChars v, hbuf, Option.getD]
  rfl

/-- Roundtrip: appending a plus and a valid identifier sequence to any
rendered version with empty metadata and empty-or-valid prerelease parses
back to the version with that metadata. -/
theorem parse_render_meta (v : Version) (bm : List Char)
    (hmeta : v.metadata = "")
    (hpre : v.prerelease = "" ∨ validIdentSeq v.prerelease.data = true)
    (hbm : validIdentSeq bm = true) :
    parseVersion (String.mk (renderChars v ++ '+' :: bm)) =
      some ⟨v.major, v.minor, v.patch, v.prerelease, String.mk bm⟩ := by
  by_cases hpe : v.prerelease = ""
  · -- empty prerelease: the render is just the core
    have hrender : renderChars v = coreChars v := by
      rw [renderChars, hpe, hmeta]
      simp
    rw [parseVersion, hrender]
    have hdata : (String.mk (coreChars v ++ '+' :: bm)).data = coreChars v ++ '+' :: bm := rfl
    rw [hdata, stripV_coreChars, parseVersionChars]
    simp only [splitFirst_append '+' _ _ (coreChars_no_plus v),
      splitFirst_no_sep '-' _ (coreChars_no_dash v),
      parseCore_coreChars v, hbm, Option.getD]
    rw [hpe]
    rfl
  · -- non-empty prerelease: the render is core ++ dash ++ prerelease
    have hpv : validIdentSeq v.prerelease.data = true := by
      rcases hpre with hpre | hpre
      · exact absurd hpre hpe
      · exact hpre
    have hpd : ¬ v.prerelease.data = [] := fun h => hpe (string_data_eq_nil_iff.mp h)
    have hrender : renderChars v = coreChars v ++ '-' :: v.prerelease.data := by
      rw [renderChars, hmeta]
      simp [hpd]
    have hplus : '+' ∉ coreChars v ++ '-' :: v.prerelease.data := by
      intro hm
      rcases List.mem_append.mp hm with hm | hm
      · exact coreChars_no_plus v hm
      · rcases List.mem_cons.mp hm with hm | hm
        · exact absurd hm (by decide)
        · exact validIdentSeq_no_plus hpv hm
    rw [parseVersion, hrender]
    have hassoc : (coreChars v ++ '-' :: v.prerelease.data) ++ '+' :: bm =
        coreChars v ++ ('-' :: v.prerelease.data ++ '+' :: bm) := by
      simp
    have hdata : (String.mk ((coreChars v ++ '-' :: v.prerelease.data) ++ '+' :: bm)).data =
        (coreChars v ++ '-' :: v.prerelease.data) ++ '+' :: bm := rfl
    rw [hdata, hassoc, stripV_coreChars, ← hassoc, parseVersionChars]
    simp only [splitFirst_append '+' _ _ hplus,
      splitFirst_append '-' _ _ (coreChars_no_dash v),
      parseCore_coreChars v, hpv, hbm, Option.getD]
    rfl

/-! ### Bump magnitudes

Modelled from the spec: the bump operations (spec section 3, BumpMagnitude)
live in a source file that is not part of the given sources; only their
callers are. Major maps (a,b,c) to (a+1,0,0), Minor to (a,b+1,0), Patch to
(a,b,c+1); all strip prerelease and build metadata. -/

theorem versionEQ_self (v : Version) : versionEQ v v = true := by
  rw [versionEQ, lawful_versionCmp.refl v]
  rfl

/-- C4 (code_bug evidence): the autotag token regexes are matched against
the whole commit message, not only its header: a message whose header has
no token but whose body contains a major token classifies as a major bump,
while the header alone classifies as nothing. -/
theorem autotag_token_in_body_classifies :
    parseAutotagCommit (messageHeader "fix stuff\n[major] in body") = none ∧
    parseAutotagCommit "fix stuff\n[major] in body" = some Bumper.major := by
  constructor
  · rfl
  · rfl

/-- C3 (counterexample): a message whose header carries the breaking
exclamation mark before the colon but whose type is not authorized is not
classified as major under strict match; it classifies as nothing. -/
theorem conventional_breaking_strict_counterexample :
    conventionalBang "foo!: thing 1" = true ∧
    parseConventionalCommit "foo!: thing 1" true = none := by
  constructor
  · rfl
  · rfl

/-- C3 (amended): a breaking marker before the colon or a BREAKING CHANGE
footer forces a major classification whenever strict match is off or the
header type is authorized; under strict match with an unauthorized type the
classification is empty instead. -/
theorem conventional_breaking_forces_major (msg : String) (strict : Bool)
    (hbreak : conventionalBang msg = true ∨ hasBreakingFooter msg = true)
    (hauth : strict = false ∨ authorizedLookup (conventionalType msg) ≠ none) :
    parseConventionalCommit msg strict = some Bumper.major := by
  rw [parseConventionalCommit]
  have hcond : (strict && (authorizedLookup (conventionalType msg)).isNone) = false := by
    rcases hauth with rfl | hauth
    · rfl
    · rcases h : authorizedLookup (conventionalType msg) with _ | b
      · exact absurd h hauth
      · simp [Option.isNone]
  rw [hcond, if_neg (by simp)]
  rcases hf : hasBreakingFooter msg
  · rcases hbreak with hb | hb
    · rw [if_neg (by simp), if_pos hb]
    · exact absurd hb (by simp [hf])
  · rw [if_pos rfl]

/-- C3 witness for the amended theorem at a concrete input. -/
theorem conventional_breaking_forces_major_witness :
    (conventionalBang "foo!: thing 1" = true ∨ hasBreakingFooter "foo!: thing 1" = true) ∧
    parseConventionalCommit "foo!: thing 1" false = some Bumper.major :=
  ⟨Or.inl (by decide), conventional_breaking_forces_major "foo!: thing 1" false
    (Or.inl (by decide)) (Or.inl rfl)⟩

/-- C8: under the conventional scheme with strict match, an unauthorized
header type is a classification failure (and parseCommit reports it naming
the commit) even when the message carries a breaking marker or a BREAKING
CHANGE footer: the unauthorized-type check is evaluated first. -/
theorem strict_unauthorized_type_before_breaking (c : Commit) (cur : Version)
    (hunauth : authorizedLookup (conventionalType c.message) = none)
    (hbreak : conventionalBang c.message = true ∨ hasBreakingFooter c.message = true) :
    parseConventionalCommit c.message true = none ∧
    parseCommit "conventional" true cur c = .error ("no match found for commit " ++ c.id) := by
  have h1 : parseConventionalCommit c.message true = none := by
    rw [parseConventionalCommit, hunauth]
    rfl
  refine ⟨h1, ?_⟩
  rw [parseCommit]
  have hb : commitBumper "conventional" true c.message = none := by
    rw [commitBumper, if_pos rfl, h1]
  rw [hb]
  rfl

/-- C8 witness at the concrete input of the strict-match test. -/
theorem strict_unauthorized_type_before_breaking_witness :
    authorizedLookup (conventionalType "foo!: thing 1") = none ∧
    parseCommit "conventional" true ⟨1, 0, 0, "", ""⟩ ⟨"c9", "foo!: thing 1"⟩ =
      .error "no match found for commit c9" :=
  ⟨by decide,
    (strict_unauthorized_type_before_breaking ⟨"c9", "foo!: thing 1"⟩ ⟨1, 0, 0, "", ""⟩
      (by decide) (Or.inl (by decide))).2⟩

/-- C9: a pre-release name one of whose dot-separated identifiers starts
with the character 0 (also alphanumeric ones, which SemVer itself permits)
fails validation, and NewRepo fails with that configuration error for every
repository state (the validation runs before any repository access). -/
theorem prerelease_name_leading_zero_rejected (cfg : Config) (part : List Char)
    (hmeta : cfg.BuildMetadata = "")
    (hpart : part ∈ splitOnChar '.' cfg.PreReleaseName.data)
    (hzero : ['0'].isPrefixOf part = true) :
    validateSemVerPreReleaseName cfg.PreReleaseName = false ∧
    validateConfig cfg =
      .error ("'" ++ cfg.PreReleaseName ++ "' is not valid SemVer pre-release name") ∧
    ∀ tags revList clock, NewRepo cfg tags revList clock =
      .error ("'" ++ cfg.PreReleaseName ++ "' is not valid SemVer pre-release name") := by
  have hne : cfg.PreReleaseName ≠ "" := by
    intro h
    rw [h] at hpart
    have : part = [] := by
      have hd : ("" : String).data = [] := rfl
      rw [hd] at hpart
      simpa [splitOnChar] using hpart
    rw [this] at hzero
    exact absurd hzero (by decide)
  have hval : validateSemVerPreReleaseName cfg.PreReleaseName = false := by
    rw [validateSemVerPreReleaseName]
    rcases h : (splitOnChar '.' cfg.PreReleaseName.data).all
        (fun s => !s.isEmpty && !(['0'].isPrefixOf s) && s.all isIdentChar)
    · rfl
    · rw [List.all_eq_true] at h
      have := h part hpart
      rw [hzero] at this
      simp at this
  have hcfg : validateConfig cfg =
      .error ("'" ++ cfg.PreReleaseName ++ "' is not valid SemVer pre-release name") := by
    rw [validateConfig, if_neg (by simp [hmeta]), if_neg (by simp [hmeta]),
      if_pos ⟨hne, hval⟩]
  refine ⟨hval, hcfg, ?_⟩
  intro tags revList clock
  rw [NewRepo, hcfg]

/-- C9 witness: the alphanumeric name 0abc is rejected. -/
theorem prerelease_name_leading_zero_rejected_witness :
    (⟨"0abc", "", false, "", "", true, false, false⟩ : Config).BuildMetadata = "" ∧
    "0abc".data ∈ splitOnChar '.' ("0abc" : String).data ∧
    NewRepo ⟨"0abc", "", false, "", "", true, false, false⟩ [] [] (fun _ => "") =
      .error "'0abc' is not valid SemVer pre-release name" :=
  ⟨rfl, by decide,
    (prerelease_name_leading_zero_rejected ⟨"0abc", "", false, "", "", true, false, false⟩
      "0abc".data rfl (by decide) (by decide)).2.2 [] [] (fun _ => "")⟩

theorem bumpWalk_all_none (scheme : String) (cur : Version)
    (l : List Commit) (acc : Version)
    (hall : ∀ c ∈ l, commitBumper scheme false c.message = none) :
    bumpWalk scheme false cur l acc = .ok acc := by
  induction l generalizing acc with
  | nil => rfl
  | cons c cs ih =>
    rw [bumpWalk, parseCommit, hall c (by simp)]
    exact ih acc (fun d hd => hall d (List.mem_cons_of_mem c hd))

/-- C6: with an empty commit range, resolution fails fatally under strict
match and otherwise applies a patch bump to the baseline; the same patch
fallback as a non-empty range in which no commit classifies. -/
theorem empty_range_strict_fatal_else_patch (scheme : String) (cur : Version)
    (revList : List Commit)
    (hnc : ∀ c ∈ revList, commitBumper scheme false c.message = none) :
    calcBumpedVersion scheme true cur [] = .error "no version to bump for the same commit" ∧
    calcBumpedVersion scheme false cur [] = .ok (Bumper.patch.bump cur) ∧
    calcBumpedVersion scheme false cur revList = .ok (Bumper.patch.bump cur) := by
  refine ⟨?_, ?_, ?_⟩
  · rw [calcBumpedVersion, if_pos ⟨rfl, rfl⟩]
  · rw [calcBumpedVersion, if_neg (by simp)]
    have hw : bumpWalk scheme false cur ([] : List Commit).reverse cur = .ok cur := rfl
    rw [hw]
    simp [versionEQ_self]
  · rw [calcBumpedVersion, if_neg (by simp)]
    have hw : bumpWalk scheme false cur revList.reverse cur = .ok cur :=
      bumpWalk_all_none scheme cur revList.reverse cur
        (fun c hc => hnc c (List.mem_reverse.mp hc))
    rw [hw]
    simp [versionEQ_self]

/-- C6 witness: the autotag scheme with an unmatched commit message. -/
theorem empty_range_strict_fatal_else_patch_witness :
    (∀ c ∈ ([⟨"c1", "just a change"⟩] : List Commit),
      commitBumper "autotag" false c.message = none) ∧
    calcBumpedVersion "autotag" true ⟨1, 0, 0, "", ""⟩ [] =
      .error "no version to bump for the same commit" ∧
    calcBumpedVersion "autotag" false ⟨1, 0, 0, "", ""⟩ [⟨"c1", "just a change"⟩] =
      .ok ⟨1, 0, 1, "", ""⟩ :=
  have h := empty_range_strict_fatal_else_patch "autotag" ⟨1, 0, 0, "", ""⟩
    [⟨"c1", "just a change"⟩] (by decide)
  ⟨by decide, h.1, h.2.2⟩

/-- C10: with no pre-release name and no timestamp layout configured, the
pre-release number flag has no effect on the resolved version, for every
repository state and every other configuration setting. -/
theorem prerelease_number_noop (cfg : Config) (tags : List String) (revList : List Commit)
    (clock : String → String) (hname : cfg.PreReleaseName = "")
    (hlayout : cfg.PreReleaseTimestampLayout = "") :
    NewRepo { cfg with PreReleaseNumber := true } tags revList clock =
      NewRepo { cfg with PreReleaseNumber := false } tags revList clock := by
  obtain ⟨n, l, pn, bm, sc, tv, sm, bn⟩ := cfg
  simp only at hname hlayout
  subst hname hlayout
  have hdata : ("" : String).data = [] := rfl
  simp [NewRepo, resolveVersion, calcVersion, hdata]
  have hvc : validateConfig ⟨"", "", true, bm, sc, tv, sm, bn⟩ =
      validateConfig ⟨"", "", false, bm, sc, tv, sm, bn⟩ := rfl
  rw [hvc]

/-- C10 witness at a concrete repository state. -/
theorem prerelease_number_noop_witness :
    (⟨"", "", false, "", "", true, false, false⟩ : Config).PreReleaseName = "" ∧
    NewRepo { (⟨"", "", false, "", "", true, false, false⟩ : Config) with
        PreReleaseNumber := true } ["v1.0.0"] [⟨"c1", "#minor x"⟩] (fun _ => "") =
      NewRepo { (⟨"", "", false, "", "", true, false, false⟩ : Config) with
        PreReleaseNumber := false } ["v1.0.0"] [⟨"c1", "#minor x"⟩] (fun _ => "") :=
  ⟨rfl, prerelease_number_noop ⟨"", "", false, "", "", true, false, false⟩
    ["v1.0.0"] [⟨"c1", "#minor x"⟩] (fun _ => "") rfl rfl⟩

/-! ### Identifier sequence lemmas for pre-release composition -/

theorem splitOnChar_append_general (sep : Char) (a b : List Char) :
    splitOnChar sep (a ++ sep :: b) = splitOnChar sep a ++ splitOnChar sep b := by
  induction a with
  | nil => simp [splitOnChar]
  | cons c cs ih =>
    by_cases hc : c = sep
    · subst hc
      rw [List.cons_append, splitOnChar, if_pos rfl, ih, splitOnChar, if_pos rfl]
      rfl
    · rw [List.cons_append, splitOnChar, if_neg hc, ih, splitOnChar, if_neg hc]
      rcases hs : splitOnChar sep cs with _ | ⟨p, ps⟩
      · exact absurd hs (splitOnChar_ne_nil sep cs)
      · rfl

theorem validIdentSeq_append (a b : List Char) :
    validIdentSeq (a ++ '.' :: b) = (validIdentSeq a && validIdentSeq b) := by
  rw [validIdentSeq, splitOnChar_append_general, List.all_append]
  rfl

theorem validateName_validIdentSeq (n : String)
    (h : validateSemVerPreReleaseName n = true) : validIdentSeq n.data = true := by
  rw [validateSemVerPreReleaseName, List.all_eq_true] at h
  rw [validIdentSeq, List.all_eq_true]
  intro p hp
  have hthis := h p hp
  rw [Bool.and_eq_true, Bool.and_eq_true] at hthis
  rw [Bool.and_eq_true]
  exact ⟨hthis.1.1, hthis.2⟩

theorem validIdentSeq_of_digits (num : List Char) (hne : num ≠ [])
    (hd : num.all isDigitChar = true) : validIdentSeq num = true := by
  have hnd : '.' ∉ num := by
    intro hm
    rw [List.all_eq_true] at hd
    exact (isDigitChar_ne '.' (hd '.' hm)).1 rfl
  rw [validIdentSeq, splitOnChar_no_sep _ _ hnd]
  rw [List.all_eq_true] at hd ⊢
  intro p hp
  rcases List.mem_singleton.mp hp with rfl
  rw [Bool.and_eq_true]
  constructor
  · simp [hne]
  · rw [List.all_eq_true]
    exact fun c hc => isIdentChar_of_digit (hd c hc)

theorem validIdentSeq_natDigits (k : Nat) : validIdentSeq (natDigits k) = true :=
  validIdentSeq_of_digits (natDigits k) (natDigits_ne_nil k)
    (List.all_eq_true.mpr (natDigits_all_digit k))

theorem parseUint64_some {s : String} {n : Nat} (h : parseUint64 s = some n) :
    s.data ≠ [] ∧ s.data.all isDigitChar = true ∧ digitsVal s.data = n := by
  rw [parseUint64] at h
  split at h
  · rename_i hcond
    exact ⟨hcond.1, hcond.2.1, by injection h⟩
  · exact absurd h (by simp)

/-- C7: pre-release composition with a non-empty name, no timestamp layout
and auto-increment on: with a matching prerelease whose identifier sequence
has exactly two parts, the appended number is the second part plus one
(64-bit unsigned), failing when that part is non-numeric; in every other
case the appended number is one. -/
theorem prerelease_number_increment (v : Version) (cp : Option Version) (name : String)
    (clock : String → String)
    (hvp : v.prerelease = "") (hvm : v.metadata = "")
    (hname : validateSemVerPreReleaseName name = true) (hne : name ≠ "") :
    (cp = none → preReleaseVersion v cp name "" true clock =
       .ok ⟨v.major, v.minor, v.patch, name ++ ".1", ""⟩) ∧
    (∀ p first num n, cp = some p → splitOnChar '.' p.prerelease.data = [first, num] →
       parseUint64 (String.mk num) = some n →
       preReleaseVersion v cp name "" true clock =
         .ok ⟨v.major, v.minor, v.patch, name ++ "." ++ natRepr ((n + 1) % 2 ^ 64), ""⟩) ∧
    (∀ p first num, cp = some p → splitOnChar '.' p.prerelease.data = [first, num] →
       parseUint64 (String.mk num) = none →
       preReleaseVersion v cp name "" true clock =
         .error "prerelease build number must be a unsigned integer") ∧
    (∀ p, cp = some p → (∀ first num, splitOnChar '.' p.prerelease.data ≠ [first, num]) →
       preReleaseVersion v cp name "" true clock =
         .ok ⟨v.major, v.minor, v.patch, name ++ ".1", ""⟩) := by
  have hnd : name.data ≠ [] := fun h => hne (string_data_eq_nil_iff.mp h)
  have hvpd : v.prerelease.data = [] := by rw [hvp]
  have hnv : validIdentSeq name.data = true := validateName_validIdentSeq name hname
  have hbufdata : ∀ num : String, (name ++ "." ++ num).data = name.data ++ '.' :: num.data := by
    intro num
    rw [String.data_append, String.data_append]
    have hdot : (("." : String)).data = ['.'] := rfl
    rw [hdot, List.append_assoc]
    rfl
  -- the common final parse step
  have hparse : ∀ num : String, validIdentSeq num.data = true →
      parseVersion (String.mk (renderChars v ++ '-' :: (name ++ "." ++ num).data)) =
        some ⟨v.major, v.minor, v.patch, name ++ "." ++ num, ""⟩ := by
    intro num hnum
    have hbuf : validIdentSeq ((name ++ "." ++ num).data) = true := by
      rw [hbufdata num, validIdentSeq_append, hnv, hnum]
      rfl
    have h1 := parse_render_pre v ((name ++ "." ++ num).data) hvp hvm hbuf
    have heta : String.mk ((name ++ "." ++ num).data) = name ++ "." ++ num := rfl
    rw [heta] at h1
    exact h1
  have houter : ∀ bufE, preReleaseBuf cp name "" true clock = bufE →
      preReleaseVersion v cp name "" true clock =
        (match bufE with
        | .error e => .error e
        | .ok buf =>
          match parseVersion (String.mk (renderChars v ++ '-' :: buf.data)) with
          | some w => .ok w
          | none => .error ("Malformed version: " ++ render v ++ "-" ++ buf)) := by
    intro bufE hb
    rw [preReleaseVersion, if_neg (fun h => hnd h.1),
      if_neg (by rw [hvpd]; exact fun h => h rfl), hb]
  have hbufsel : preReleaseBuf cp name "" true clock =
      (match cp with
      | none => .ok (name ++ "." ++ "1")
      | some p =>
        match splitOnChar '.' p.prerelease.data with
        | [_, num] =>
          match parseUint64 (String.mk num) with
          | some n => .ok (name ++ "." ++ natRepr ((n + 1) % 2 ^ 64))
          | none => .error "prerelease build number must be a unsigned integer"
        | _ => .ok (name ++ "." ++ "1")) := by
    rw [preReleaseBuf.eq_def, if_neg (fun h => h rfl), if_pos ⟨hnd, rfl⟩]
    cases cp <;> rfl
  have hone : validIdentSeq ("1" : String).data = true := by decide
  have happ1 : name ++ "." ++ "1" = name ++ ".1" := by
    rw [String.append_assoc]
    rfl
  have hparse1 : parseVersion (String.mk (renderChars v ++ '-' :: (name ++ ".1").data)) =
      some ⟨v.major, v.minor, v.patch, name ++ ".1", ""⟩ := by
    have h := hparse "1" hone
    rw [happ1] at h
    exact h
  refine ⟨?_, ?_, ?_, ?_⟩
  · intro hcp
    subst hcp
    have hbufsel2 : preReleaseBuf none name "" true clock = .ok (name ++ ".1") := by
      rw [hbufsel, happ1]
    rw [houter _ hbufsel2]
    simp only [hparse1]
  · intro p first num n hcp hsplit hpu
    subst hcp
    have hbufsel2 : preReleaseBuf (some p) name "" true clock =
        .ok (name ++ "." ++ natRepr ((n + 1) % 2 ^ 64)) := by
      rw [hbufsel]
      simp only [hsplit, hpu]
    have hnatv : validIdentSeq (natRepr ((n + 1) % 2 ^ 64)).data = true := by
      have hh : (natRepr ((n + 1) % 2 ^ 64)).data = natDigits ((n + 1) % 2 ^ 64) := rfl
      rw [hh]
      exact validIdentSeq_natDigits _
    rw [houter _ hbufsel2]
    simp only [hparse _ hnatv]
  · intro p first num hcp hsplit hpu
    subst hcp
    have hbufsel2 : preReleaseBuf (some p) name "" true clock =
        .error "prerelease build number must be a unsigned integer" := by
      rw [hbufsel]
      simp only [hsplit, hpu]
    rw [houter _ hbufsel2]
  · intro p hcp hnot
    subst hcp
    rcases hsplit : splitOnChar '.' p.prerelease.data with _ | ⟨a, _ | ⟨b, _ | ⟨c, rest⟩⟩⟩
    · exact absurd hsplit (splitOnChar_ne_nil '.' p.prerelease.data)
    · have hbufsel2 : preReleaseBuf (some p) name "" true clock = .ok (name ++ ".1") := by
        rw [hbufsel]
        simp only [hsplit, happ1]
      rw [houter _ hbufsel2]
      simp only [hparse1]
    · exact absurd hsplit (hnot a b)
    · have hbufsel2 : preReleaseBuf (some p) name "" true clock = .ok (name ++ ".1") := by
        rw [hbufsel]
        simp only [hsplit, happ1]
      rw [houter _ hbufsel2]
      simp only [hparse1]

/-- C7 witness: the scenario of the prerelease number test, baseline bumped
to 1.0.2 with an existing 1.0.2-dev.1 prerelease tag. -/
theorem prerelease_number_increment_witness :
    (⟨1, 0, 2, "", ""⟩ : Version).prerelease = "" ∧
    validateSemVerPreReleaseName "dev" = true ∧
    preReleaseVersion ⟨1, 0, 2, "", ""⟩ (some ⟨1, 0, 2, "dev.1", ""⟩) "dev" "" true
      (fun _ => "") = .ok ⟨1, 0, 2, "dev" ++ "." ++ natRepr ((1 + 1) % 2 ^ 64), ""⟩ :=
  ⟨rfl, by decide,
    (prerelease_number_increment ⟨1, 0, 2, "", ""⟩ (some ⟨1, 0, 2, "dev.1", ""⟩) "dev"
      (fun _ => "") rfl rfl (by decide) (by decide)).2.1
      ⟨1, 0, 2, "dev.1", ""⟩ "dev".data "1".data 1 rfl (by decide) (by decide)⟩

/-! ### The build-number counter source (C1) -/

theorem stripV_shape_plus (t bm : List Char) :
    ∃ t', stripV (t ++ '+' :: bm) = t' ++ '+' :: bm := by
  rcases t with _ | ⟨c, r⟩
  · refine ⟨[], ?_⟩
    rw [List.nil_append, stripV, if_neg (by decide)]
  · rw [List.cons_append, stripV]
    by_cases hc : c = 'v'
    · exact ⟨r, by rw [if_pos hc]⟩
    · refine ⟨c :: r, ?_⟩
      rw [if_neg hc]
      rfl

theorem parseVersionChars_metadata {cs : List Char} {w : Version}
    (h : parseVersionChars cs = some w) :
    w.metadata = String.mk ((splitFirst '+' cs).2.getD []) ∧
    (∀ m, (splitFirst '+' cs).2 = some m → validIdentSeq m = true) := by
  rw [parseVersionChars] at h
  rcases hc : parseCore (splitFirst '-' (splitFirst '+' cs).1).1 with _ | t <;> rw [hc] at h
  · cases h
  · rw [Option.some_bind] at h
    split at h
    · rename_i hcond
      injection h with h
      rw [Bool.and_eq_true] at hcond
      constructor
      · rw [← h]
      · intro m hm
        have h2 := hcond.2
        rw [hm] at h2
        exact h2
    · cases h

/-- A successful parse of a string of the form t plus bm has metadata
exactly bm: either the first plus sits where it was appended, or the
metadata would contain a plus and the parse could not have succeeded. -/
theorem parse_meta_of_append (t bm : List Char) (w : Version)
    (h : parseVersion (String.mk (t ++ '+' :: bm)) = some w) :
    w.metadata = String.mk bm := by
  rw [parseVersion] at h
  have hdata : (String.mk (t ++ '+' :: bm)).data = t ++ '+' :: bm := rfl
  rw [hdata] at h
  obtain ⟨t', ht'⟩ := stripV_shape_plus t bm
  rw [ht'] at h
  have hfields := parseVersionChars_metadata h
  rcases splitFirst_append_cases '+' t' bm with hs | ⟨p, q, hs⟩
  · rw [hs] at hfields
    exact hfields.1
  · rw [hs] at hfields
    have hvalid := hfields.2 (q ++ '+' :: bm) rfl
    exact absurd (validIdentSeq_no_plus hvalid) (by simp)

/-- C1 (amended): when buildNumber is enabled and resolution succeeds, the
appended build-metadata counter is computed from the metadata field of the
highest-precedence parsed tag (latestTagVersion), which may be a prerelease
tag above the stable baseline: empty means one, a numeric value is
incremented (64-bit unsigned), and a non-numeric value would have failed. -/
theorem build_number_counter_from_latest_tag (cfg : Config) (tags : List String)
    (revList : List Commit) (clock : String → String) (v : Version)
    (hbn : cfg.BuildNumber = true)
    (hok : resolveVersion cfg tags revList clock = .ok v) :
    ∃ idx bm, parseTags cfg.PreReleaseName tags = .ok idx ∧
      nextBuildMeta idx.latestTagVersion.metadata = .ok bm ∧ v.metadata = bm := by
  rw [resolveVersion] at hok
  rcases ht : parseTags cfg.PreReleaseName tags with e | idx <;> simp only [ht] at hok
  · simp at hok
  rw [calcVersion.eq_def] at hok
  rcases hcb : calcBumpedVersion cfg.Scheme cfg.StrictMatch idx.currentVersion revList
    with e | nv <;> simp only [hcb] at hok
  · simp at hok
  rcases hpr : (if cfg.PreReleaseName.data ≠ [] ∨ cfg.PreReleaseTimestampLayout.data ≠ [] then
      preReleaseVersion nv idx.curPreReleaseVer cfg.PreReleaseName
        cfg.PreReleaseTimestampLayout cfg.PreReleaseNumber clock
    else .ok nv) with e | nv2 <;> simp only [hpr] at hok
  · simp at hok
  rw [hbn] at hok
  rw [if_pos rfl] at hok
  by_cases hm : cfg.BuildMetadata ≠ ""
  · rw [if_pos hm] at hok
    cases hok
  · rw [if_neg hm] at hok
    rcases hnb : nextBuildMeta idx.latestTagVersion.metadata with e | bm <;>
      simp only [hnb] at hok
    · simp at hok
    rcases hpv : parseVersion (String.mk (renderChars nv2 ++ '+' :: bm.data))
      with _ | w <;> simp only [hpv] at hok
    · simp at hok
    refine ⟨idx, bm, rfl, hnb, ?_⟩
    injection hok with hok
    rw [← hok]
    have hme := parse_meta_of_append (renderChars nv2) bm.data w hpv
    rw [hme]

/-- C1 witness: the build-number test scenario, a single stable tag whose
own metadata is the counter. -/
theorem build_number_counter_from_latest_tag_witness :
    (⟨"", "", false, "", "", true, false, true⟩ : Config).BuildNumber = true ∧
    resolveVersion ⟨"", "", false, "", "", true, false, true⟩ ["v1.0.1+123"] []
      (fun _ => "") = .ok ⟨1, 0, 2, "", "124"⟩ ∧
    ∃ idx bm, parseTags "" ["v1.0.1+123"] = .ok idx ∧
      nextBuildMeta idx.latestTagVersion.metadata = .ok bm ∧
      (⟨1, 0, 2, "", "124"⟩ : Version).metadata = bm :=
  ⟨rfl, rfl,
    build_number_counter_from_latest_tag ⟨"", "", false, "", "", true, false, true⟩
      ["v1.0.1+123"] [] (fun _ => "") ⟨1, 0, 2, "", "124"⟩ rfl rfl⟩

/-- C1 (counterexample): with a prerelease tag outranking the stable
baseline, the counter is read from that prerelease tag's (empty) metadata
and not from the baseline's own metadata field 3, so the appended counter
is 1 and not 4. -/
theorem build_number_baseline_counterexample :
    (parseTags "" ["v1.0.0+3", "v1.1.0-pre.1"]).map TagIndex.currentVersion =
      .ok ⟨1, 0, 0, "", "3"⟩ ∧
    (parseTags "" ["v1.0.0+3", "v1.1.0-pre.1"]).map TagIndex.latestTagVersion =
      .ok ⟨1, 1, 0, "pre.1", ""⟩ ∧
    resolveVersion ⟨"", "", false, "", "", true, false, true⟩
      ["v1.0.0+3", "v1.1.0-pre.1"] [⟨"c1", "a fix"⟩] (fun _ => "") =
      .ok ⟨1, 0, 1, "", "1"⟩ ∧
    ¬ resolveVersion ⟨"", "", false, "", "", true, false, true⟩
      ["v1.0.0+3", "v1.1.0-pre.1"] [⟨"c1", "a fix"⟩] (fun _ => "") =
      .ok ⟨1, 0, 1, "", "4"⟩ := by
  refine ⟨rfl, rfl, rfl, ?_⟩
  intro h
  rw [show resolveVersion ⟨"", "", false, "", "", true, false, true⟩
      ["v1.0.0+3", "v1.1.0-pre.1"] [⟨"c1", "a fix"⟩] (fun _ => "") =
      .ok ⟨1, 0, 1, "", "1"⟩ from rfl] at h
  simp at h

/-! ### Sorting and baseline selection (C5) -/

theorem sortInsert_perm (v : Version) (l : List Version) :
    (sortInsert v l).Perm (v :: l) := by
  induction l with
  | nil => exact List.Perm.refl _
  | cons w ws ih =>
    rw [sortInsert]
    by_cases hlt : versionCmp v w = .lt
    · rw [if_pos hlt]
      exact ((ih.cons w).trans (List.Perm.swap v w ws))
    · rw [if_neg hlt]

theorem sortDesc_perm (l : List Version) : (sortDesc l).Perm l := by
  induction l with
  | nil => exact List.Perm.refl _
  | cons x xs ih =>
    rw [sortDesc, List.foldr_cons]
    exact (sortInsert_perm x _).trans (ih.cons x)

theorem sortInsert_pairwise (v : Version) (l : List Version)
    (h : l.Pairwise (fun a b => versionCmp a b ≠ .lt)) :
    (sortInsert v l).Pairwise (fun a b => versionCmp a b ≠ .lt) := by
  induction l with
  | nil => simp [sortInsert]
  | cons w ws ih =>
    rw [sortInsert]
    rcases List.pairwise_cons.mp h with ⟨hw, hws⟩
    by_cases hlt : versionCmp v w = .lt
    · rw [if_pos hlt, List.pairwise_cons]
      constructor
      · intro x hx
        rcases List.mem_cons.mp ((sortInsert_perm v ws).mem_iff.mp hx) with rfl | hx'
        · intro hc
          have hg : versionCmp w x = .gt := lawful_versionCmp.gtOfSwapLt hlt
          rw [hc] at hg
          cases hg
        · exact hw x hx'
      · exact ih hws
    · rw [if_neg hlt, List.pairwise_cons]
      constructor
      · intro x hx
        rcases List.mem_cons.mp hx with rfl | hx'
        · exact hlt
        · exact lawful_versionCmp.transGe hlt (hw x hx')
      · exact h

theorem sortDesc_pairwise (l : List Version) :
    (sortDesc l).Pairwise (fun a b => versionCmp a b ≠ .lt) := by
  induction l with
  | nil => simp [sortDesc]
  | cons x xs ih =>
    rw [sortDesc, List.foldr_cons]
    exact sortInsert_pairwise x _ ih

theorem ne_gt_of_ge {a b : Version} (h : versionCmp a b ≠ .lt) : versionCmp b a ≠ .gt := by
  intro hc
  exact h (lawful_versionCmp.ltOfSwapGt hc)

theorem scanKeys_ok (name : String) (keys : List Version)
    (hpw : keys.Pairwise (fun a b => versionCmp a b ≠ .lt)) :
    ∀ cp0 : Option Version,
      (∀ cp cur, scanKeys name keys cp0 = .ok (cp, cur) →
        cur ∈ keys ∧ cur.prerelease = "" ∧
        ∀ w ∈ keys, w.prerelease = "" → versionCmp w cur ≠ .gt) ∧
      (scanKeys name keys cp0 = .error "no stable (non pre-release) version tags found" ↔
        ∀ w ∈ keys, w.prerelease ≠ "") := by
  induction keys with
  | nil =>
    intro cp0
    constructor
    · intro cp cur heq
      cases heq
    · simp [scanKeys]
  | cons v vs ih =>
    intro cp0
    rcases List.pairwise_cons.mp hpw with ⟨hv, hvs⟩
    by_cases hst : v.prerelease = ""
    · have hscan : ∀ cp0', scanKeys name (v :: vs) cp0' =
          .ok (if name ≠ "" ∧ v.prerelease ≠ "" ∧ cp0' = none
              ∧ (name ++ ".").data.isPrefixOf v.prerelease.data = true then some v else cp0',
            v) := by
        intro cp0'
        rw [scanKeys, if_pos hst]
      constructor
      · intro cp cur heq
        rw [hscan cp0] at heq
        have hpair := Except.ok.inj heq
        have hcur : v = cur := congrArg Prod.snd hpair
        subst hcur
        refine ⟨by simp, hst, ?_⟩
        intro w hw hwst
        rcases List.mem_cons.mp hw with rfl | hw'
        · rw [lawful_versionCmp.refl]
          exact fun h => by cases h
        · exact ne_gt_of_ge (hv w hw')
      · rw [hscan cp0]
        constructor
        · intro h
          cases h
        · intro h
          exact absurd hst (h v (by simp))
    · have hscan : scanKeys name (v :: vs) cp0 =
          scanKeys name vs (if name ≠ "" ∧ v.prerelease ≠ "" ∧ cp0 = none
            ∧ (name ++ ".").data.isPrefixOf v.prerelease.data = true then some v else cp0) := by
        rw [scanKeys, if_neg hst]
      rcases ih hvs _ with ⟨ihok, iherr⟩
      constructor
      · intro cp cur heq
        rw [hscan] at heq
        rcases ihok cp cur heq with ⟨hmem, hcst, hmax⟩
        refine ⟨List.mem_cons_of_mem v hmem, hcst, ?_⟩
        intro w hw hwst
        rcases List.mem_cons.mp hw with rfl | hw'
        · exact absurd hwst hst
        · exact hmax w hw' hwst
      · rw [hscan, iherr]
        constructor
        · intro h w hw
          rcases List.mem_cons.mp hw with rfl | hw'
          · exact hst
          · exact h w hw'
        · intro h w hw
          exact h w (List.mem_cons_of_mem v hw)

/-- C5: the tag index selects as baseline a highest-precedence parsed
version with empty prerelease (no stable parsed tag compares strictly
higher); it fails with the no-stable-tag error exactly when no parsed tag
is stable (so unparseable tags, which are skipped, never cause the failure
by themselves); and that failure is fatal to the whole resolution. -/
theorem tag_index_baseline_selection (name : String) (tags : List String) :
    (∀ idx, parseTags name tags = .ok idx →
        idx.currentVersion ∈ tags.filterMap parseVersion ∧
        idx.currentVersion.prerelease = "" ∧
        ∀ w ∈ tags.filterMap parseVersion, w.prerelease = "" →
          versionCmp w idx.currentVersion ≠ .gt) ∧
    (parseTags name tags = .error "no stable (non pre-release) version tags found" ↔
        ∀ w ∈ tags.filterMap parseVersion, w.prerelease ≠ "") ∧
    (∀ cfg revList clock e, cfg.PreReleaseName = name →
        parseTags name tags = .error e →
        resolveVersion cfg tags revList clock = .error e) := by
  have hperm := sortDesc_perm (tags.filterMap parseVersion)
  have hpw := sortDesc_pairwise (tags.filterMap parseVersion)
  have hmem : ∀ a, a ∈ sortDesc (tags.filterMap parseVersion) ↔
      a ∈ tags.filterMap parseVersion := fun a => hperm.mem_iff
  refine ⟨?_, ?_, ?_⟩
  · intro idx hok
    rw [parseTags] at hok
    rcases hk : sortDesc (tags.filterMap parseVersion) with _ | ⟨k0, rest⟩ <;>
      simp only [hk] at hok
    · cases hok
    rcases hs : scanKeys name (k0 :: rest) none with e | pr <;> simp only [hs] at hok
    · cases hok
    rcases pr with ⟨cp, cur⟩
    injection hok with hok
    rw [hk] at hpw
    rcases (scanKeys_ok name (k0 :: rest) hpw none).1 cp cur hs with ⟨hmem', hcst, hmax⟩
    rw [← hok]
    refine ⟨(hmem cur).mp (by rw [hk]; exact hmem'), hcst, ?_⟩
    intro w hw hwst
    have hw' : w ∈ k0 :: rest := by
      rw [← hk]
      exact (hmem w).mpr hw
    exact hmax w hw' hwst
  · rw [parseTags]
    rcases hk : sortDesc (tags.filterMap parseVersion) with _ | ⟨k0, rest⟩ <;>
      simp only [hk]
    · constructor
      · intro _ w hw
        exact absurd ((hmem w).mpr hw) (by rw [hk]; simp)
      · intro _
        trivial
    · rw [hk] at hpw
      have hiff := (scanKeys_ok name (k0 :: rest) hpw none).2
      rcases hs : scanKeys name (k0 :: rest) none with e | pr <;> simp only [hs]
      · rw [hs] at hiff
        constructor
        · intro he w hw
          injection he with he
          have hall' := hiff.mp (by rw [he])
          have hw' : w ∈ k0 :: rest := by
            rw [← hk]
            exact (hmem w).mpr hw
          exact hall' w hw'
        · intro hall
          have hrest : ∀ w ∈ k0 :: rest, w.prerelease ≠ "" := by
            intro w hw
            exact hall w ((hmem w).mp (by rw [hk]; exact hw))
          have hee := hiff.mpr hrest
          injection hee with hee
          rw [hee]
      · rcases pr with ⟨cp, cur⟩
        constructor
        · intro h
          cases h
        · intro hall
          rw [hs] at hiff
          have : ∀ w ∈ k0 :: rest, w.prerelease ≠ "" := by
            intro w hw
            exact hall w ((hmem w).mp (by rw [hk]; exact hw))
          exact absurd (hiff.mpr this) (by simp)
  · intro cfg revList clock e hname herr
    rw [resolveVersion, hname, herr]

/-- C5 witness: a mix of stable, prerelease and unparseable tags selects the
stable baseline below a higher prerelease; a tag list with no stable parsed
tag fails with the no-stable-tag error. -/
theorem tag_index_baseline_selection_witness :
    parseTags "" ["v1.0.2-pre", "foo", "v1.0.0", ""] =
      .ok ⟨⟨1, 0, 2, "pre", ""⟩, none, ⟨1, 0, 0, "", ""⟩⟩ ∧
    ((⟨1, 0, 0, "", ""⟩ : Version) ∈
        ["v1.0.2-pre", "foo", "v1.0.0", ""].filterMap parseVersion ∧
      (⟨1, 0, 0, "", ""⟩ : Version).prerelease = "" ∧
      ∀ w ∈ ["v1.0.2-pre", "foo", "v1.0.0", ""].filterMap parseVersion,
        w.prerelease = "" → versionCmp w ⟨1, 0, 0, "", ""⟩ ≠ .gt) ∧
    ∀ w ∈ ["v9.9.9-rc.1", "junk"].filterMap parseVersion, w.prerelease ≠ "" :=
  ⟨rfl,
    (tag_index_baseline_selection "" ["v1.0.2-pre", "foo", "v1.0.0", ""]).1
      ⟨⟨1, 0, 2, "pre", ""⟩, none, ⟨1, 0, 0, "", ""⟩⟩ rfl,
    (tag_index_baseline_selection "" ["v9.9.9-rc.1", "junk"]).2.1.mp rfl⟩

/-! ### The maximum magnitude of a commit range (C2) -/

theorem versionGT_bump (b : Bumper) (cur : Version) :
    versionGT (b.bump cur) cur = true := by
  have hgt : ∀ n : Nat, compare (n + 1) n = Ordering.gt :=
    fun n => Nat.compare_eq_gt.mpr (Nat.lt_succ_self n)
  have heq : ∀ n : Nat, compare n n = Ordering.eq :=
    fun n => Nat.compare_eq_eq.mpr rfl
  cases b <;>
    simp only [versionGT, versionCmp, thenCmp, pullCmp, Bumper.bump, hgt, heq,
      Ordering.then] <;> rfl

theorem versionGT_bump_bump (b1 b2 : Bumper) (cur : Version) :
    versionGT (b1.bump cur) (b2.bump cur) = decide (b2.rank < b1.rank) := by
  have hgt : ∀ n : Nat, compare (n + 1) n = Ordering.gt :=
    fun n => Nat.compare_eq_gt.mpr (Nat.lt_succ_self n)
  have hlt : ∀ n : Nat, compare n (n + 1) = Ordering.lt :=
    fun n => Nat.compare_eq_lt.mpr (Nat.lt_succ_self n)
  have heq : ∀ n : Nat, compare n n = Ordering.eq :=
    fun n => Nat.compare_eq_eq.mpr rfl
  cases b1 <;> cases b2 <;>
    simp only [versionGT, versionCmp, thenCmp, pullCmp, Bumper.bump, Bumper.rank,
      hgt, hlt, heq, Ordering.then, prereleaseCmp] <;> rfl

theorem versionCmp_bump_gt (b : Bumper) (cur : Version) :
    versionCmp (b.bump cur) cur = .gt := by
  have h := versionGT_bump b cur
  rw [versionGT] at h
  rcases hc : versionCmp (b.bump cur) cur <;> rw [hc] at h
  all_goals first | cases h | rfl | exact hc

theorem versionEQ_bump_false (b : Bumper) (cur : Version) :
    versionEQ (b.bump cur) cur = false := by
  rw [versionEQ, versionCmp_bump_gt]
  rfl

theorem walk_step_embed (accB : Option Bumper) (b : Bumper) (cur : Version) :
    (if versionGT (b.bump cur) (embedAcc cur accB) = true then b.bump cur
      else embedAcc cur accB) = embedAcc cur (optMaxBumper accB b) := by
  rcases accB with _ | a
  · rw [embedAcc, versionGT_bump, if_pos rfl]
    rfl
  · rw [embedAcc, versionGT_bump_bump]
    by_cases h : a.rank < b.rank
    · rw [if_pos (by simp [h]), optMaxBumper]
      simp [h, embedAcc]
    · rw [if_neg (by simp [h]), optMaxBumper]
      simp [h, embedAcc]

theorem classifyStep_none {scheme : String} {strict : Bool} {m : String}
    (hb : commitBumper scheme strict m = none) (acc : Option Bumper) :
    classifyStep scheme strict acc m = acc := by
  rw [classifyStep, hb]

theorem classifyStep_some {scheme : String} {strict : Bool} {m : String} {b : Bumper}
    (hb : commitBumper scheme strict m = some b) (acc : Option Bumper) :
    classifyStep scheme strict acc m = optMaxBumper acc b := by
  rw [classifyStep, hb]

theorem bumpWalk_cons_none {scheme : String} {strict : Bool} {cur : Version}
    {c : Commit} (cs : List Commit) (acc : Version)
    (hb : commitBumper scheme strict c.message = none) :
    bumpWalk scheme strict cur (c :: cs) acc =
      if strict = true then .error ("no match found for commit " ++ c.id)
      else bumpWalk scheme strict cur cs acc := by
  rw [bumpWalk, parseCommit, hb]
  cases strict <;> simp

theorem bumpWalk_cons_some {scheme : String} {strict : Bool} {cur : Version}
    {c : Commit} {bp : Bumper} (cs : List Commit) (acc : Version)
    (hb : commitBumper scheme strict c.message = some bp) :
    bumpWalk scheme strict cur (c :: cs) acc =
      bumpWalk scheme strict cur cs
        (if versionGT (bp.bump cur) acc = true then bp.bump cur else acc) := by
  rw [bumpWalk, parseCommit, hb]
  simp

theorem bumpWalk_ok_iff (scheme : String) (strict : Bool) (cur : Version) :
    ∀ (l : List Commit) (accB : Option Bumper) (v : Version),
      bumpWalk scheme strict cur l (embedAcc cur accB) = .ok v ↔
        ((strict = true → ∀ c ∈ l, commitBumper scheme strict c.message ≠ none) ∧
          v = embedAcc cur (classifyFold scheme strict accB (l.map Commit.message))) := by
  intro l
  induction l with
  | nil =>
    intro accB v
    rw [bumpWalk, classifyFold]
    simp [eq_comm]
  | cons c cs ih =>
    intro accB v
    have hmap : (c :: cs).map Commit.message = c.message :: cs.map Commit.message := rfl
    rcases hb : commitBumper scheme strict c.message with _ | bp
    · rw [bumpWalk_cons_none cs (embedAcc cur accB) hb, hmap, classifyFold,
        List.foldl_cons, classifyStep_none hb, ← classifyFold]
      by_cases hstt : strict = true
      · rw [if_pos hstt]
        constructor
        · intro h
          cases h
        · intro ⟨hC, _⟩
          exact absurd hb (hC hstt c (by simp))
      · rw [if_neg hstt]
        constructor
        · intro h
          rcases (ih accB v).mp h with ⟨hC, hv⟩
          exact ⟨fun hs => absurd hs hstt, hv⟩
        · intro ⟨hC, hv⟩
          exact (ih accB v).mpr ⟨fun hs => absurd hs hstt, hv⟩
    · rw [bumpWalk_cons_some cs (embedAcc cur accB) hb, walk_step_embed accB bp cur,
        hmap, classifyFold, List.foldl_cons, classifyStep_some hb, ← classifyFold]
      constructor
      · intro h
        rcases (ih (optMaxBumper accB bp) v).mp h with ⟨hC, hv⟩
        refine ⟨?_, hv⟩
        intro hs d hd
        rcases List.mem_cons.mp hd with rfl | hd'
        · simp [hb]
        · exact hC hs d hd'
      · intro ⟨hC, hv⟩
        exact (ih (optMaxBumper accB bp) v).mpr
          ⟨fun hs d hd => hC hs d (List.mem_cons_of_mem c hd), hv⟩

theorem optMaxBumper_comm (z : Option Bumper) (b1 b2 : Bumper) :
    optMaxBumper (optMaxBumper z b1) b2 = optMaxBumper (optMaxBumper z b2) b1 := by
  rcases z with _ | a
  · cases b1 <;> cases b2 <;> decide
  · cases a <;> cases b1 <;> cases b2 <;> decide

theorem classifyFold_perm (scheme : String) (strict : Bool) {m1 m2 : List String}
    (hp : m1.Perm m2) (acc : Option Bumper) :
    classifyFold scheme strict acc m1 = classifyFold scheme strict acc m2 := by
  refine hp.foldl_eq' ?_ acc
  intro x _ y _ z
  rcases hx : commitBumper scheme strict x with _ | b1 <;>
    rcases hy : commitBumper scheme strict y with _ | b2
  · simp only [classifyStep_none hx, classifyStep_none hy]
  · simp only [classifyStep_none hx, classifyStep_some hy]
  · simp only [classifyStep_some hx, classifyStep_none hy]
  · simp only [classifyStep_some hx, classifyStep_some hy]
    exact optMaxBumper_comm z b1 b2

theorem classifyFold_eq_maxMagnitude (scheme : String) (strict : Bool)
    (msgs : List String) :
    classifyFold scheme strict none msgs =
      maxMagnitude (msgs.filterMap (commitBumper scheme strict)) := by
  rw [maxMagnitude]
  suffices h : ∀ acc, classifyFold scheme strict acc msgs =
      (msgs.filterMap (commitBumper scheme strict)).foldl optMaxBumper acc from h none
  induction msgs with
  | nil => intro acc; rfl
  | cons m ms ih =>
    intro acc
    rw [classifyFold, List.foldl_cons, List.filterMap_cons]
    rcases hm : commitBumper scheme strict m with _ | b
    · rw [classifyStep_none hm, ← classifyFold]
      exact ih acc
    · rw [classifyStep_some hm, List.foldl_cons, ← classifyFold]
      exact ih (optMaxBumper acc b)

theorem classifyFold_some_acc (scheme : String) (strict : Bool) :
    ∀ (msgs : List String) (a : Bumper),
      classifyFold scheme strict (some a) msgs ≠ none := by
  intro msgs
  induction msgs with
  | nil => intro a h; cases h
  | cons m ms ih =>
    intro a
    rw [classifyFold, List.foldl_cons]
    rcases hm : commitBumper scheme strict m with _ | b
    · rw [classifyStep_none hm, ← classifyFold]
      exact ih a
    · rw [classifyStep_some hm, optMaxBumper, ← classifyFold]
      exact ih _

theorem calcBumpedVersion_ok_iff (scheme : String) (strict : Bool) (cur : Version)
    (revList : List Commit) (v : Version) :
    calcBumpedVersion scheme strict cur revList = .ok v ↔
      (¬(revList = [] ∧ strict = true) ∧
        (strict = true → ∀ c ∈ revList, commitBumper scheme strict c.message ≠ none) ∧
        v = (match maxMagnitude ((revList.map Commit.message).filterMap
              (commitBumper scheme strict)) with
            | none => Bumper.patch.bump cur
            | some m => m.bump cur)) := by
  have hfold : classifyFold scheme strict none (revList.reverse.map Commit.message) =
      maxMagnitude ((revList.map Commit.message).filterMap (commitBumper scheme strict)) := by
    rw [classifyFold_perm scheme strict
      ((revList.reverse_perm).map Commit.message) none,
      classifyFold_eq_maxMagnitude]
  have hiff := bumpWalk_ok_iff scheme strict cur revList.reverse none
  have hembed : embedAcc cur none = cur := rfl
  rw [calcBumpedVersion]
  by_cases hes : revList.length = 0 ∧ strict = true
  · rw [if_pos hes]
    constructor
    · intro h
      cases h
    · intro ⟨h1, _⟩
      exact absurd ⟨List.length_eq_zero.mp hes.1, hes.2⟩ h1
  · rw [if_neg hes]
    have hC_transfer : (strict = true → ∀ c ∈ revList.reverse,
        commitBumper scheme strict c.message ≠ none) ↔
        (strict = true → ∀ c ∈ revList, commitBumper scheme strict c.message ≠ none) := by
      constructor <;> intro h hs c hc
      · exact h hs c (List.mem_reverse.mpr hc)
      · exact h hs c (List.mem_reverse.mp hc)
    rcases hw : bumpWalk scheme strict cur revList.reverse cur with e | nv
    · constructor
      · intro h
        cases h
      · intro ⟨h1, h2, h3⟩
        have hok := (hiff (embedAcc cur (classifyFold scheme strict none
            (revList.reverse.map Commit.message)))).mpr ⟨hC_transfer.mpr h2, rfl⟩
        rw [hembed] at hok
        rw [hw] at hok
        cases hok
    · have hnv := (hiff nv).mp (by rw [hembed]; exact hw)
      rcases hnv with ⟨hC, hnveq⟩
      rw [hfold] at hnveq
      rcases hfm : maxMagnitude ((revList.map Commit.message).filterMap
          (commitBumper scheme strict)) with _ | m <;> rw [hfm] at hnveq
      · rw [hembed] at hnveq
        subst hnveq
        show (if versionEQ nv nv = true then
            if strict = true then Except.error "no version to bump found in commit message"
            else Except.ok (Bumper.patch.bump nv)
          else Except.ok nv) = Except.ok v ↔ _
        rw [versionEQ_self]
        by_cases hst : strict = true
        · rw [if_pos rfl, if_pos hst]
          constructor
          · intro h
            cases h
          · intro ⟨h1, h2, h3⟩
            have hne : revList ≠ [] := fun hnil => h1 ⟨hnil, hst⟩
            rcases hrl : revList with _ | ⟨c, cs⟩
            · exact absurd hrl hne
            · have hclass : ∀ c' ∈ revList, commitBumper scheme strict c'.message ≠ none :=
                h2 hst
              have : classifyFold scheme strict none (revList.reverse.map Commit.message) ≠
                  none := by
                rcases hrev : revList.reverse.map Commit.message with _ | ⟨m0, ms⟩
                · exfalso
                  have : revList.reverse = [] := by
                    rcases hr : revList.reverse with _ | _
                    · rfl
                    · rw [hr] at hrev
                      cases hrev
                  rw [List.reverse_eq_nil_iff] at this
                  exact hne this
                · rw [classifyFold, List.foldl_cons]
                  have hm0 : ∃ c0 ∈ revList, c0.message = m0 := by
                    have : m0 ∈ revList.reverse.map Commit.message := by
                      rw [hrev]
                      simp
                    rcases List.mem_map.mp this with ⟨c0, hc0, hc0m⟩
                    exact ⟨c0, List.mem_reverse.mp hc0, hc0m⟩
                  rcases hm0 with ⟨c0, hc0, hc0m⟩
                  rcases hcb0 : commitBumper scheme strict m0 with _ | b0
                  · exact absurd (by rw [hc0m]; exact hcb0) (hclass c0 hc0)
                  · rw [classifyStep_some hcb0]
                    exact classifyFold_some_acc scheme strict ms b0
              rw [hfold] at this
              exact absurd hfm this
        · rw [if_pos rfl, if_neg hst]
          constructor
          · intro h
            injection h with h
            exact ⟨fun hp => hst hp.2, fun hs => absurd hs hst, by rw [← h]⟩
          · intro ⟨h1, h2, h3⟩
            rw [h3]
      · rw [show embedAcc cur (some m) = m.bump cur from rfl] at hnveq
        subst hnveq
        show (if versionEQ (m.bump cur) cur = true then
            if strict = true then Except.error "no version to bump found in commit message"
            else Except.ok (Bumper.patch.bump cur)
          else Except.ok (m.bump cur)) = Except.ok v ↔ _
        rw [versionEQ_bump_false]
        rw [if_neg Bool.false_ne_true]
        constructor
        · intro h
          injection h with h
          refine ⟨?_, hC_transfer.mp hC, by rw [← h]⟩
          intro ⟨hnil, hstr⟩
          exact hes ⟨by rw [hnil]; rfl, hstr⟩
        · intro ⟨h1, h2, h3⟩
          rw [h3]

/-- C2: over a non-empty commit range, the selected bump is the bump of the
maximum magnitude over all classified commits, and any permutation of the
multiset of commit messages resolves to the same version (the walk result
is order-independent). -/
theorem commit_range_max_and_perm (scheme : String) (strict : Bool) (cur : Version)
    (l₁ l₂ : List Commit) (hne : l₁ ≠ [])
    (hp : (l₁.map Commit.message).Perm (l₂.map Commit.message)) :
    (∀ v, calcBumpedVersion scheme strict cur l₁ = .ok v ↔
          calcBumpedVersion scheme strict cur l₂ = .ok v) ∧
    (∀ v, calcBumpedVersion scheme strict cur l₁ = .ok v →
        v = (match maxMagnitude ((l₁.map Commit.message).filterMap
              (commitBumper scheme strict)) with
            | none => Bumper.patch.bump cur
            | some m => m.bump cur)) := by
  have hnil : l₁ = [] ↔ l₂ = [] := by
    have hlen : l₁.length = l₂.length := by
      have := hp.length_eq
      simpa using this
    constructor <;> intro h
    · rw [← List.length_eq_zero, ← hlen, h]
      rfl
    · rw [← List.length_eq_zero, hlen, h]
      rfl
  have hclassified : (∀ c ∈ l₁, commitBumper scheme strict c.message ≠ none) ↔
      (∀ c ∈ l₂, commitBumper scheme strict c.message ≠ none) := by
    constructor <;> intro h c hc
    · have hm : c.message ∈ l₁.map Commit.message :=
        hp.mem_iff.mpr (List.mem_map_of_mem Commit.message hc)
      rcases List.mem_map.mp hm with ⟨c', hc', hcm⟩
      rw [← hcm]
      exact h c' hc'
    · have hm : c.message ∈ l₂.map Commit.message :=
        hp.mem_iff.mp (List.mem_map_of_mem Commit.message hc)
      rcases List.mem_map.mp hm with ⟨c', hc', hcm⟩
      rw [← hcm]
      exact h c' hc'
  have hmax : maxMagnitude ((l₁.map Commit.message).filterMap (commitBumper scheme strict)) =
      maxMagnitude ((l₂.map Commit.message).filterMap (commitBumper scheme strict)) := by
    rw [maxMagnitude, maxMagnitude]
    refine (hp.filterMap (commitBumper scheme strict)).foldl_eq' ?_ none
    intro x _ y _ z
    exact optMaxBumper_comm z x y
  constructor
  · intro v
    rw [calcBumpedVersion_ok_iff, calcBumpedVersion_ok_iff, hmax]
    constructor
    · intro ⟨h1, h2, h3⟩
      exact ⟨fun ⟨ha, hb⟩ => h1 ⟨hnil.mpr ha, hb⟩,
        fun hs => hclassified.mp (h2 hs), h3⟩
    · intro ⟨h1, h2, h3⟩
      exact ⟨fun ⟨ha, hb⟩ => h1 ⟨hnil.mp ha, hb⟩,
        fun hs => hclassified.mpr (h2 hs), h3⟩
  · intro v h
    exact ((calcBumpedVersion_ok_iff scheme strict cur l₁ v).mp h).2.2

/-- C2 witness: a major between minor commits, in two different orders. -/
theorem commit_range_max_and_perm_witness :
    (([⟨"a", "[minor] one"⟩, ⟨"b", "[major] two"⟩, ⟨"c", "[minor] three"⟩] :
        List Commit) ≠ []) ∧
    calcBumpedVersion "autotag" false ⟨1, 0, 0, "", ""⟩
      [⟨"a", "[minor] one"⟩, ⟨"b", "[major] two"⟩, ⟨"c", "[minor] three"⟩] =
      .ok ⟨2, 0, 0, "", ""⟩ ∧
    (calcBumpedVersion "autotag" false ⟨1, 0, 0, "", ""⟩
        [⟨"a", "[minor] one"⟩, ⟨"b", "[major] two"⟩, ⟨"c", "[minor] three"⟩] =
        .ok ⟨2, 0, 0, "", ""⟩ ↔
      calcBumpedVersion "autotag" false ⟨1, 0, 0, "", ""⟩
        [⟨"d", "[major] two"⟩, ⟨"e", "[minor] three"⟩, ⟨"f", "[minor] one"⟩] =
        .ok ⟨2, 0, 0, "", ""⟩) :=
  ⟨by decide, by rfl,
    (commit_range_max_and_perm "autotag" false ⟨1, 0, 0, "", ""⟩
      [⟨"a", "[minor] one"⟩, ⟨"b", "[major] two"⟩, ⟨"c", "[minor] three"⟩]
      [⟨"d", "[major] two"⟩, ⟨"e", "[minor] three"⟩, ⟨"f", "[minor] one"⟩]
      (by decide) (by decide)).1 ⟨2, 0, 0, "", ""⟩⟩


end Autotag

